import Mathlib

/-!
Verification development for the pipe engine of `dlt` (file `dlt/extract/pipe.py`).

The development contains three shallow embeddings, each faithful to the part of
the source it covers:

* a value-level model of `Pipe` and its step list (`VPipe`, `StepVal`) for the
  step-admission and mutation operations (`append_step`, `insert_step`,
  `remove_step`, `fork`, `evaluate_gen`) and the `ForkPipe` transform;
* a heap-level model (`PipeObj`, `Heap`) in which Python object identity is an
  address, for `Pipe._clone` and `PipeIterator.clone_pipes`;
* a dispatcher model (`DState`, `bodyStep`) of `PipeIterator.__next__`,
  `_next_future`, `_resolve_futures`, `_get_source_item`, `close` and
  `ManagedPipeIterator.__next__`, with future completion modelled as an
  environment transition of a step relation.

Python dynamic values that can flow through a pipe are modelled by `PyVal`;
Python exceptions by `PyExn`.  Machine-level details that the claims do not
touch (thread pools, the asyncio loop object, `makefun` internals) are outside
the state; where a modelling choice is made it is recorded in a doc comment on
the definition.
-/

namespace DltPipe

/-- Python exceptions raised by the engine (`dlt.extract.exceptions`) together
with the built-in exceptions the code interacts with. -/
inductive PyExn where
  | typeError (msg : String)
  | otherError (msg : String)
  | stopIteration
  | indexError
  | assertionError
  | createPipeException (pipeName msg : String)
  | invalidStepFunctionArguments (pipeName msg : String)
  | invalidTransformerGeneratorFunction (pipeName : String) (code : Nat)
  | parametrizedResourceUnbound (pipeName kind : String)
  | pipeItemProcessingError (pipeName : String)
  | pipeNotBoundToData (pipeName : String)
deriving DecidableEq

/-- The shape of a Python callable signature, as probed by the source through
`inspect.signature`: its parameter count, whether a parameter named `meta`
exists and whether that parameter is keyword-capable, whether
`sig.bind("item", meta="meta")` succeeds, and whether `sig.bind()` succeeds. -/
structure FnSig where
  argCount : Nat
  hasMeta : Bool
  metaKwCapable : Bool
  bindsItemMeta : Bool
  bindsZero : Bool
deriving DecidableEq

/-- Signature of the wrapper produced by `makefun.wraps` in
`Pipe._wrap_transform_step_meta`: a keyword-only `meta` parameter with default
`None` is appended to a one-argument callable, so the wrapper takes two
parameters, has a keyword-capable `meta`, binds `("item", meta="meta")`, and
still cannot be called with zero arguments. -/
def wrapSig (_s : FnSig) : FnSig :=
  { argCount := 2, hasMeta := true, metaKwCapable := true
    bindsItemMeta := true, bindsZero := false }

/-- Signature of `ForkPipe.__call__` as seen through `inspect.signature` on the
instance: parameters `(item, meta)`, both positional-or-keyword. -/
def forkSig : FnSig :=
  { argCount := 2, hasMeta := true, metaKwCapable := true
    bindsItemMeta := true, bindsZero := false }

/-- A value occupying one slot of `Pipe._steps` (`TPipeStep` in the source).
Object identity, where it matters (iterators installed by `evaluate_gen`),
is an allocation address.  A zero-argument callable head carries the value
`gen()` would return (`res0`); `wrappedV` is the `makefun` wrapper around a
one-argument callable. -/
inductive StepVal where
  | iterableV (xs : List Int)
  | iteratorV (addr : Nat)
  | callableV (sig : FnSig) (tag : Nat) (res0 : StepVal)
  | wrappedV (sig : FnSig) (tag : Nat)
  | forkV (edges : List (Nat × Int)) (copyOnFork : Bool)
  | nonCallableV (tag : Nat)
deriving DecidableEq

/-- `isinstance(step, (Iterable, Iterator))` for a step value. -/
def isIterableStep : StepVal → Bool
  | .iterableV _ => true
  | .iteratorV _ => true
  | _ => false

/-- `isinstance(step, Iterator)` for a step value. -/
def isIteratorStep : StepVal → Bool
  | .iteratorV _ => true
  | _ => false

/-- The signature `inspect.signature(step)` would report, or `none` when the
step is not callable. -/
def stepSig : StepVal → Option FnSig
  | .callableV s _ _ => some s
  | .wrappedV s _ => some (wrapSig s)
  | .forkV _ _ => some forkSig
  | _ => none

/-- `callable(step)` for a step value. -/
def isCallableStep (s : StepVal) : Bool :=
  (stepSig s).isSome

/-- The value-level model of `Pipe`: name, `_gen_idx`, `_steps` and the
optional parent pipe.  The `_pipe_id` field and parent object identity are
modelled separately at the heap level (see `PipeObj`), since none of the
step-list operations consult them. -/
inductive VPipe where
  | mk (name : String) (genIdx : Nat) (steps : List StepVal) (parent : Option VPipe)

def VPipe.name : VPipe → String
  | .mk n _ _ _ => n

def VPipe.genIdx : VPipe → Nat
  | .mk _ g _ _ => g

def VPipe.steps : VPipe → List StepVal
  | .mk _ _ st _ => st

def VPipe.parent : VPipe → Option VPipe
  | .mk _ _ _ par => par

def VPipe.setSteps : VPipe → List StepVal → VPipe
  | .mk n g _ par, st => .mk n g st par

def VPipe.setStepsGen : VPipe → List StepVal → Nat → VPipe
  | .mk n _ _ par, st, g => .mk n g st par

/-- `Pipe.has_parent`. -/
def VPipe.hasParent (p : VPipe) : Bool :=
  p.parent.isSome

/-- `Pipe.is_empty`. -/
def VPipe.isEmptyP (p : VPipe) : Bool :=
  p.steps.isEmpty

/-- `Pipe.is_data_bound`: a pipe with a parent is bound iff the parent is,
otherwise iff it is non-empty. -/
def VPipe.isDataBound : VPipe → Bool
  | .mk _ _ steps none => !steps.isEmpty
  | .mk _ _ _ (some par) => par.isDataBound

/-- `Pipe.gen`: the step at `_gen_idx`; `none` models the `IndexError` Python
would raise when the index is out of range. -/
def VPipe.gen? (p : VPipe) : Option StepVal :=
  p.steps[p.genIdx]?

/-- `Pipe._verify_head_step`: the first step of a parentless pipe must be an
Iterable, an Iterator or a callable. -/
def verifyHeadStep (name : String) (s : StepVal) : Except PyExn Unit :=
  if isIterableStep s || isCallableStep s then .ok ()
  else .error (.createPipeException name
    "A head of a resource pipe must be Iterable, Iterator or a Callable")

/-- `Pipe._ensure_transform_step`: asserts the step is callable, then tries
`sig.bind("item", meta="meta")`; on a `TypeError` it raises
`InvalidTransformerGeneratorFunction` or `ParametrizedResourceUnbound` for the
gen step and `InvalidStepFunctionArguments` otherwise. -/
def ensureTransformStep (name : String) (genIdx stepNo : Nat) (s : StepVal) :
    Except PyExn Unit :=
  match stepSig s with
  | none => .error .assertionError
  | some sig =>
    if sig.bindsItemMeta then .ok ()
    else if stepNo = genIdx then
      if sig.argCount = 0 then .error (.invalidTransformerGeneratorFunction name 1)
      else .error (.parametrizedResourceUnbound name "transformer")
    else .error (.invalidStepFunctionArguments name "bind failed")

/-- The `makefun.wraps` adaptation applied to a one-argument callable in
`Pipe._wrap_transform_step_meta`. -/
def wrapStep : StepVal → StepVal
  | .callableV sig tag _ => .wrappedV sig tag
  | s => s

/-- `Pipe._wrap_transform_step_meta`: rejects Iterables/Iterators and
non-callables, rejects zero-argument callables, rejects a positional-only
`meta`, wraps one-argument callables, and (when the pipe is non-empty) runs
`_ensure_transform_step` on the resulting step. -/
def wrapTransformStepMeta (name : String) (hasParent : Bool) (genIdx : Nat)
    (isEmptyPipe : Bool) (stepNo : Nat) (s : StepVal) : Except PyExn StepVal := do
  if isIterableStep s then
    if hasParent then
      throw (.createPipeException name
        "Iterable or Iterator cannot be a step in transformer pipe")
    else
      throw (.createPipeException name
        "Iterable or Iterator can only be a first step in resource pipe")
  else
    match stepSig s with
    | none =>
      throw (.createPipeException name
        "Pipe step must be a callable taking one data item as argument and optional second meta argument")
    | some sig => do
      if sig.argCount = 0 then
        throw (.invalidStepFunctionArguments name "Function takes no arguments")
      let s' ←
        if sig.hasMeta then
          if sig.metaKwCapable then pure s
          else throw (.invalidStepFunctionArguments name "meta cannot be pos only argument")
        else if sig.argCount = 1 then pure (wrapStep s)
        else pure s
      if !isEmptyPipe then
        ensureTransformStep name genIdx stepNo s'
      pure s'

/-- `Pipe.append_step`: the first step of a parentless pipe goes through head
verification, every other step through `_wrap_transform_step_meta`. -/
def VPipe.appendStep (p : VPipe) (s : StepVal) : Except PyExn VPipe := do
  let stepNo := p.steps.length
  if stepNo = 0 && !p.hasParent then do
    verifyHeadStep p.name s
    pure (p.setSteps (p.steps ++ [s]))
  else do
    let s' ← wrapTransformStepMeta p.name p.hasParent p.genIdx p.isEmptyP stepNo s
    pure (p.setSteps (p.steps ++ [s']))

/-- `Pipe.insert_step`.  An empty pipe delegates to `append_step`; inserting at
index 0 is only allowed for transformer pipes; the step is wrapped, inserted
(Python `list.insert` clamps an index past the end), and `_gen_idx` is bumped
when the insertion point is at or before it. -/
def VPipe.insertStep (p : VPipe) (s : StepVal) (index : Nat) : Except PyExn VPipe := do
  let stepNo := p.steps.length
  if stepNo = 0 then p.appendStep s
  else do
    if index = 0 && !p.hasParent then
      throw (.createPipeException p.name
        "You cannot insert a step before head of the resource that is not a transformer")
    let s' ← wrapTransformStepMeta p.name p.hasParent p.genIdx p.isEmptyP index s
    let steps' := p.steps.insertIdx (min index p.steps.length) s'
    let g' := if index ≤ p.genIdx then p.genIdx + 1 else p.genIdx
    pure (p.setStepsGen steps' g')

/-- `Pipe.remove_step`: removing the gen step raises `CreatePipeException`; an
out-of-range index raises `IndexError` (Python `list.pop`); otherwise the step
is removed and `_gen_idx` decremented when the removal was before it. -/
def VPipe.removeStep (p : VPipe) (index : Nat) : Except PyExn VPipe := do
  if index = p.genIdx then
    throw (.createPipeException p.name
      "Step at index holds a data generator for this pipe and cannot be removed")
  if p.steps.length ≤ index then
    throw .indexError
  let steps' := p.steps.eraseIdx index
  let g' := if index < p.genIdx then p.genIdx - 1 else p.genIdx
  pure (p.setStepsGen steps' g')

/-- `Pipe.replace_gen`: asserts the pipe is non-empty and overwrites the gen
slot in place. -/
def VPipe.replaceGen (p : VPipe) (s : StepVal) : Except PyExn VPipe :=
  if p.isEmptyP then .error .assertionError
  else .ok (p.setSteps (p.steps.set p.genIdx s))

/-- `ForkPipe.add_pipe`.  The guard in the source is
`if pipe not in self._pipes` where `_pipes` is a list of `(pipe, step)`
tuples; a `Pipe` object never compares equal to a tuple in Python, so the
guard always passes and the pair is appended unconditionally. -/
def forkAddPipe (edges : List (Nat × Int)) (pipe : Nat) (step : Int) :
    List (Nat × Int) :=
  edges ++ [(pipe, step)]

/-- `ForkPipe.has_pipe`: membership of the child pipe (by identity) among the
first components of the edges. -/
def forkHasPipe (edges : List (Nat × Int)) (pipe : Nat) : Bool :=
  edges.any (fun e => e.1 = pipe)

/-- `Pipe.fork`: forking an empty pipe raises; if the tail step is not a
`ForkPipe` a new one holding the single edge is appended through
`append_step`; otherwise the edge is added unless the child is already
present.  Child pipes are identified by address, as the source compares them
by object identity. -/
def VPipe.fork (p : VPipe) (childPipe : Nat) (childStep : Int)
    (copyOnFork : Bool) : Except PyExn VPipe := do
  if p.steps.length = 0 then
    throw (.createPipeException p.name "Cannot fork to empty pipe")
  match p.steps.getLast? with
  | some (.forkV edges cof) =>
    if forkHasPipe edges childPipe then pure p
    else
      pure (p.setSteps (p.steps.dropLast ++
        [.forkV (forkAddPipe edges childPipe childStep) cof]))
  | _ =>
    p.appendStep (.forkV (forkAddPipe [] childPipe childStep) copyOnFork)

/-- Python `iter(x)` as applied by `evaluate_gen` to the head slot: `iter` of
an iterator returns the same object, `iter` of a plain iterable allocates a
fresh iterator object. -/
def iterOfStep (s : StepVal) (counter : Nat) : StepVal × Nat :=
  match s with
  | .iteratorV a => (.iteratorV a, counter)
  | .iterableV _ => (.iteratorV counter, counter + 1)
  | s => (s, counter)

/-- Calling the head step with zero arguments, `gen()` in `evaluate_gen`: a
callable whose signature binds zero arguments returns its value, any other
callable raises `TypeError`. -/
def callZero : StepVal → Except PyExn StepVal
  | .callableV sig _ res0 =>
    if sig.bindsZero then .ok res0
    else .error (.typeError "missing required arguments")
  | .wrappedV sig _ =>
    if (wrapSig sig).bindsZero then .ok (.nonCallableV 0)
    else .error (.typeError "missing required arguments")
  | .forkV _ _ => .error (.typeError "missing required arguments")
  | _ => .error (.typeError "object is not callable")

/-- `Pipe.evaluate_gen`: checks data-boundness, then, for a parentless pipe,
replaces slot 0 by the result of calling a callable head (a `TypeError`
becomes `ParametrizedResourceUnbound`) or by `iter` of an iterable head; for a
transformer pipe it only validates the head transform signature.  The
`counter` threads the allocation of fresh iterator objects. -/
def VPipe.evaluateGen (p : VPipe) (counter : Nat) : Except PyExn (VPipe × Nat) := do
  if !p.isDataBound then
    throw (.pipeNotBoundToData p.name)
  match p.gen? with
  | none => throw .indexError
  | some gen =>
    if !p.hasParent then
      if isCallableStep gen then
        match callZero gen with
        | .error _ => throw (.parametrizedResourceUnbound p.name "resource")
        | .ok res => pure (p.setSteps (p.steps.set 0 res), counter)
      else if isIterableStep gen then
        let r := iterOfStep gen counter
        pure (p.setSteps (p.steps.set 0 r.1), r.2)
      else pure (p, counter)
    else do
      ensureTransformStep p.name p.genIdx p.genIdx gen
      pure (p, counter)

/-- One data item flowing through a `ForkPipe`, with an object identity
(`addr`) and its payload; Python `copy` produces a fresh identity with the
same payload. -/
structure Item where
  addr : Nat
  payload : Int
deriving DecidableEq

/-- A `ResolvablePipeItem` as emitted by `ForkPipe.__call__`: the item, the
entry step, the target pipe (by identity) and the meta. -/
structure FRes where
  item : Item
  step : Int
  pipe : Nat
  meta : Int
deriving DecidableEq

/-- The loop body of `ForkPipe.__call__`: edge index 0, or any edge when
`copy_on_fork` is false, receives the item itself; later edges receive a
shallow copy (fresh address, same payload) when `copy_on_fork` is true.
`i` is the enumeration index and `fresh` the next free address. -/
def forkCallFrom (cof : Bool) (item : Item) (meta : Int) :
    Nat → Nat → List (Nat × Int) → List FRes
  | _, _, [] => []
  | i, fresh, (pip, stp) :: rest =>
    if i = 0 || !cof then
      ⟨item, stp, pip, meta⟩ :: forkCallFrom cof item meta (i + 1) fresh rest
    else
      ⟨⟨fresh, item.payload⟩, stp, pip, meta⟩ ::
        forkCallFrom cof item meta (i + 1) (fresh + 1) rest

/-- `ForkPipe.__call__` on the full edge list. -/
def forkCall (edges : List (Nat × Int)) (cof : Bool) (item : Item)
    (meta : Int) (fresh : Nat) : List FRes :=
  forkCallFrom cof item meta 0 fresh edges

/-- One mutating call on a pipe step list: `append_step`, `insert_step` or
`remove_step`. -/
inductive PipeOp where
  | addStep (s : StepVal)
  | insStep (s : StepVal) (i : Nat)
  | remStep (i : Nat)

def applyOp (p : VPipe) : PipeOp → Except PyExn VPipe
  | .addStep s => p.appendStep s
  | .insStep s i => p.insertStep s i
  | .remStep i => p.removeStep i

/-- A sequence of `append_step`, `insert_step`, `remove_step` calls applied in
order; the first raising call aborts the sequence as in Python. -/
def applyOps (p : VPipe) : List PipeOp → Except PyExn VPipe
  | [] => .ok p
  | o :: rest =>
    match applyOp p o with
    | .error e => .error e
    | .ok q => applyOps q rest

theorem getElem?_insertIdx_lt {α : Type} (l : List α) (a : α) (n k : Nat)
    (hk : k < n) : (l.insertIdx n a)[k]? = l[k]? := by
  induction l generalizing n k with
  | nil =>
    cases n with
    | zero => omega
    | succ n => simp [List.insertIdx_succ_nil]
  | cons x xs ih =>
    cases n with
    | zero => omega
    | succ n =>
      rw [List.insertIdx_succ_cons]
      cases k with
      | zero => simp
      | succ k => simpa using ih n k (by omega)

theorem getElem?_insertIdx_ge {α : Type} (l : List α) (a : α) (n k : Nat)
    (hnk : n ≤ k) (hn : n ≤ l.length) :
    (l.insertIdx n a)[k + 1]? = l[k]? := by
  induction l generalizing n k with
  | nil =>
    cases n with
    | zero => simp [List.insertIdx_zero]
    | succ n => simp at hn
  | cons x xs ih =>
    cases n with
    | zero => simp [List.insertIdx_zero]
    | succ n =>
      rw [List.insertIdx_succ_cons]
      cases k with
      | zero => omega
      | succ k => simpa using ih n k (by omega) (by simpa using hn)

theorem setSteps_name (p : VPipe) (st : List StepVal) :
    (p.setSteps st).name = p.name := by
  cases p; rfl

theorem setSteps_genIdx (p : VPipe) (st : List StepVal) :
    (p.setSteps st).genIdx = p.genIdx := by
  cases p; rfl

theorem setSteps_steps (p : VPipe) (st : List StepVal) :
    (p.setSteps st).steps = st := by
  cases p; rfl

theorem setStepsGen_genIdx (p : VPipe) (st : List StepVal) (g : Nat) :
    (p.setStepsGen st g).genIdx = g := by
  cases p; rfl

theorem setStepsGen_steps (p : VPipe) (st : List StepVal) (g : Nat) :
    (p.setStepsGen st g).steps = st := by
  cases p; rfl

/-- Auxiliary: a successful `append_step` leaves `gen` untouched and keeps the
gen index in range. -/
theorem appendStep_gen_pres (p q : VPipe) (s : StepVal)
    (hwf : p.genIdx < p.steps.length) (h : p.appendStep s = .ok q) :
    q.gen? = p.gen? ∧ q.genIdx < q.steps.length := by
  unfold VPipe.appendStep at h
  have hne : ¬(p.steps.length = 0 && !p.hasParent) = true := by
    simp only [Bool.and_eq_true, decide_eq_true_eq]
    rintro ⟨h0, -⟩
    omega
  rw [if_neg hne] at h
  cases hw : wrapTransformStepMeta p.name p.hasParent p.genIdx p.isEmptyP p.steps.length s with
  | error e =>
    rw [hw] at h
    simp [Bind.bind, Except.bind, pure, Except.pure] at h
  | ok s' =>
    rw [hw] at h
    simp only [Bind.bind, Except.bind, pure, Except.pure, Except.ok.injEq] at h
    subst h
    refine ⟨?_, ?_⟩
    · simp only [VPipe.gen?, setSteps_steps, setSteps_genIdx]
      exact List.getElem?_append_left hwf
    · simp only [setSteps_steps, setSteps_genIdx, List.length_append]
      omega

/-- Auxiliary: a successful `insert_step` leaves `gen` untouched, keeps the gen
index in range, and bumps the gen index exactly when the insertion point is at
or before it. -/
theorem insertStep_gen_pres (p q : VPipe) (s : StepVal) (i : Nat)
    (hwf : p.genIdx < p.steps.length) (h : p.insertStep s i = .ok q) :
    q.gen? = p.gen? ∧ q.genIdx < q.steps.length ∧
      (i ≤ p.genIdx → q.genIdx = p.genIdx + 1) := by
  unfold VPipe.insertStep at h
  have hne : ¬(p.steps.length = 0) := by omega
  rw [if_neg hne] at h
  by_cases hz : (i = 0 && !p.hasParent) = true
  · rw [if_pos hz] at h
    simp [Bind.bind, Except.bind, pure, Except.pure, throw, throwThe,
      MonadExceptOf.throw] at h
  · rw [if_neg hz] at h
    cases hw : wrapTransformStepMeta p.name p.hasParent p.genIdx p.isEmptyP i s with
    | error e =>
      rw [hw] at h
      simp [Bind.bind, Except.bind, pure, Except.pure] at h
    | ok s' =>
      rw [hw] at h
      simp only [Bind.bind, Except.bind, pure, Except.pure, Except.ok.injEq] at h
      subst h
      by_cases hig : i ≤ p.genIdx
      · have himin : min i p.steps.length = i := Nat.min_eq_left (by omega)
        have hlen : (p.steps.insertIdx i s').length = p.steps.length + 1 :=
          List.length_insertIdx (a := s') i p.steps (by omega)
        refine ⟨?_, ?_, fun _ => by simp [setStepsGen_genIdx, hig]⟩
        · simp only [VPipe.gen?, setStepsGen_steps, setStepsGen_genIdx, if_pos hig, himin]
          exact getElem?_insertIdx_ge p.steps s' i p.genIdx hig (by omega)
        · simp only [setStepsGen_steps, setStepsGen_genIdx, if_pos hig, himin, hlen]
          omega
      · have hlen : (p.steps.insertIdx (min i p.steps.length) s').length
            = p.steps.length + 1 :=
          List.length_insertIdx (a := s') (min i p.steps.length) p.steps (by omega)
        refine ⟨?_, ?_, fun hc => absurd hc hig⟩
        · simp only [VPipe.gen?, setStepsGen_steps, setStepsGen_genIdx, if_neg hig]
          exact getElem?_insertIdx_lt p.steps s' (min i p.steps.length) p.genIdx (by omega)
        · simp only [setStepsGen_steps, setStepsGen_genIdx, if_neg hig, hlen]
          omega

/-- Auxiliary: a successful `remove_step` leaves `gen` untouched and keeps the
gen index in range. -/
theorem removeStep_gen_pres (p q : VPipe) (i : Nat)
    (hwf : p.genIdx < p.steps.length) (h : p.removeStep i = .ok q) :
    q.gen? = p.gen? ∧ q.genIdx < q.steps.length := by
  unfold VPipe.removeStep at h
  by_cases hig : i = p.genIdx
  · rw [if_pos hig] at h
    simp [Bind.bind, Except.bind, pure, Except.pure, throw, throwThe,
      MonadExceptOf.throw] at h
  · rw [if_neg hig] at h
    by_cases hlen : p.steps.length ≤ i
    · rw [if_pos hlen] at h
      simp [Bind.bind, Except.bind, pure, Except.pure, throw, throwThe,
        MonadExceptOf.throw] at h
    · rw [if_neg hlen] at h
      simp only [Bind.bind, Except.bind, pure, Except.pure, Except.ok.injEq] at h
      subst h
      have herase : (p.steps.eraseIdx i).length = p.steps.length - 1 :=
        List.length_eraseIdx_of_lt (by omega)
      by_cases hlt : i < p.genIdx
      · rw [if_pos hlt]
        refine ⟨?_, ?_⟩
        · simp only [VPipe.gen?, setStepsGen_steps, setStepsGen_genIdx, if_pos hlt]
          rw [List.getElem?_eraseIdx_of_ge _ _ _ (by omega)]
          congr 1
          omega
        · simp only [setStepsGen_steps, setStepsGen_genIdx, if_pos hlt, herase]
          omega
      · rw [if_neg hlt]
        refine ⟨?_, ?_⟩
        · simp only [VPipe.gen?, setStepsGen_steps, setStepsGen_genIdx, if_neg hlt]
          exact List.getElem?_eraseIdx_of_lt _ _ _ (by omega)
        · simp only [setStepsGen_steps, setStepsGen_genIdx, if_neg hlt, herase]
          omega

theorem applyOp_gen_pres (p q : VPipe) (o : PipeOp)
    (hwf : p.genIdx < p.steps.length) (h : applyOp p o = .ok q) :
    q.gen? = p.gen? ∧ q.genIdx < q.steps.length := by
  cases o with
  | addStep s => exact appendStep_gen_pres p q s hwf h
  | insStep s i =>
    have := insertStep_gen_pres p q s i hwf h
    exact ⟨this.1, this.2.1⟩
  | remStep i => exact removeStep_gen_pres p q i hwf h

theorem applyOps_gen_pres (ops : List PipeOp) (p q : VPipe)
    (hwf : p.genIdx < p.steps.length) (h : applyOps p ops = .ok q) :
    q.gen? = p.gen? ∧ q.genIdx < q.steps.length := by
  induction ops generalizing p with
  | nil =>
    simp only [applyOps, Except.ok.injEq] at h
    subst h
    exact ⟨rfl, hwf⟩
  | cons o rest ih =>
    simp only [applyOps] at h
    cases ho : applyOp p o with
    | error e => rw [ho] at h; simp at h
    | ok r =>
      rw [ho] at h
      have hr := applyOp_gen_pres p r o hwf ho
      have := ih r hr.2 h
      exact ⟨this.1.trans hr.1, this.2⟩

/-- C5: for any pipe with its gen index in range and any sequence of
`append_step`, `insert_step` and `remove_step` calls that succeeds (a
successful sequence can never have removed the gen step, since `remove_step`
raises on it), the step returned by the `gen` property is unchanged; in
particular a successful `insert_step` at an index at or before the gen index
bumps the gen index by one while still designating the same step. -/
theorem gen_stable_under_step_ops (p q : VPipe) (ops : List PipeOp)
    (hwf : p.genIdx < p.steps.length) (h : applyOps p ops = .ok q) :
    q.gen? = p.gen? ∧
      (∀ (s : StepVal) (i : Nat) (q1 : VPipe), i ≤ p.genIdx →
        p.insertStep s i = .ok q1 → q1.genIdx = p.genIdx + 1 ∧ q1.gen? = p.gen?) := by
  refine ⟨(applyOps_gen_pres ops p q hwf h).1, fun s i q1 hi h1 => ?_⟩
  have := insertStep_gen_pres p q1 s i hwf h1
  exact ⟨this.2.2 hi, this.1⟩

/-- C5 witness: a transformer pipe with gen index 1; appending a transform,
inserting one before the gen and removing the step before the gen succeed and
leave `gen` unchanged, and any successful insert at or before the gen index
bumps the gen index. -/
theorem gen_stable_under_step_ops_witness :
    (VPipe.mk "t" 1
        [.callableV ⟨2, true, true, true, false⟩ 0 (.nonCallableV 0),
         .callableV ⟨2, true, true, true, false⟩ 1 (.nonCallableV 0)]
        (some (VPipe.mk "par" 0 [.iterableV [1]] none))).genIdx <
      (VPipe.mk "t" 1
        [.callableV ⟨2, true, true, true, false⟩ 0 (.nonCallableV 0),
         .callableV ⟨2, true, true, true, false⟩ 1 (.nonCallableV 0)]
        (some (VPipe.mk "par" 0 [.iterableV [1]] none))).steps.length ∧
    applyOps
      (VPipe.mk "t" 1
        [.callableV ⟨2, true, true, true, false⟩ 0 (.nonCallableV 0),
         .callableV ⟨2, true, true, true, false⟩ 1 (.nonCallableV 0)]
        (some (VPipe.mk "par" 0 [.iterableV [1]] none)))
      [.addStep (.callableV ⟨2, true, true, true, false⟩ 2 (.nonCallableV 0)),
       .insStep (.callableV ⟨2, true, true, true, false⟩ 3 (.nonCallableV 0)) 0,
       .remStep 0] =
      .ok (VPipe.mk "t" 1
        [.callableV ⟨2, true, true, true, false⟩ 0 (.nonCallableV 0),
         .callableV ⟨2, true, true, true, false⟩ 1 (.nonCallableV 0),
         .callableV ⟨2, true, true, true, false⟩ 2 (.nonCallableV 0)]
        (some (VPipe.mk "par" 0 [.iterableV [1]] none))) ∧
    ((VPipe.mk "t" 1
        [.callableV ⟨2, true, true, true, false⟩ 0 (.nonCallableV 0),
         .callableV ⟨2, true, true, true, false⟩ 1 (.nonCallableV 0),
         .callableV ⟨2, true, true, true, false⟩ 2 (.nonCallableV 0)]
        (some (VPipe.mk "par" 0 [.iterableV [1]] none))).gen? =
      (VPipe.mk "t" 1
        [.callableV ⟨2, true, true, true, false⟩ 0 (.nonCallableV 0),
         .callableV ⟨2, true, true, true, false⟩ 1 (.nonCallableV 0)]
        (some (VPipe.mk "par" 0 [.iterableV [1]] none))).gen? ∧
      (∀ (s : StepVal) (i : Nat) (q1 : VPipe),
        i ≤ (VPipe.mk "t" 1
          [.callableV ⟨2, true, true, true, false⟩ 0 (.nonCallableV 0),
           .callableV ⟨2, true, true, true, false⟩ 1 (.nonCallableV 0)]
          (some (VPipe.mk "par" 0 [.iterableV [1]] none))).genIdx →
        (VPipe.mk "t" 1
          [.callableV ⟨2, true, true, true, false⟩ 0 (.nonCallableV 0),
           .callableV ⟨2, true, true, true, false⟩ 1 (.nonCallableV 0)]
          (some (VPipe.mk "par" 0 [.iterableV [1]] none))).insertStep s i
          = .ok q1 →
        q1.genIdx = (VPipe.mk "t" 1
          [.callableV ⟨2, true, true, true, false⟩ 0 (.nonCallableV 0),
           .callableV ⟨2, true, true, true, false⟩ 1 (.nonCallableV 0)]
          (some (VPipe.mk "par" 0 [.iterableV [1]] none))).genIdx + 1 ∧
        q1.gen? = (VPipe.mk "t" 1
          [.callableV ⟨2, true, true, true, false⟩ 0 (.nonCallableV 0),
           .callableV ⟨2, true, true, true, false⟩ 1 (.nonCallableV 0)]
          (some (VPipe.mk "par" 0 [.iterableV [1]] none))).gen?)) :=
  ⟨Nat.one_lt_two, rfl,
    gen_stable_under_step_ops
      (VPipe.mk "t" 1
        [.callableV ⟨2, true, true, true, false⟩ 0 (.nonCallableV 0),
         .callableV ⟨2, true, true, true, false⟩ 1 (.nonCallableV 0)]
        (some (VPipe.mk "par" 0 [.iterableV [1]] none)))
      (VPipe.mk "t" 1
        [.callableV ⟨2, true, true, true, false⟩ 0 (.nonCallableV 0),
         .callableV ⟨2, true, true, true, false⟩ 1 (.nonCallableV 0),
         .callableV ⟨2, true, true, true, false⟩ 2 (.nonCallableV 0)]
        (some (VPipe.mk "par" 0 [.iterableV [1]] none)))
      [.addStep (.callableV ⟨2, true, true, true, false⟩ 2 (.nonCallableV 0)),
       .insStep (.callableV ⟨2, true, true, true, false⟩ 3 (.nonCallableV 0)) 0,
       .remStep 0]
      Nat.one_lt_two rfl⟩

/-- C9: removing the step at the gen index raises `CreatePipeException` (and,
the operation being pure before the raise, the steps and the gen index are
untouched), while removing at an index strictly below the gen index removes
exactly that step and decrements the gen index by one. -/
theorem removeStep_spec (p : VPipe) (index : Nat)
    (hwf : p.genIdx < p.steps.length) :
    p.removeStep p.genIdx = .error (.createPipeException p.name
      "Step at index holds a data generator for this pipe and cannot be removed") ∧
    (index < p.genIdx →
      p.removeStep index =
        .ok (p.setStepsGen (p.steps.eraseIdx index) (p.genIdx - 1))) := by
  constructor
  · unfold VPipe.removeStep
    simp [Bind.bind, Except.bind, pure, Except.pure, throw, throwThe,
      MonadExceptOf.throw]
  · intro hlt
    unfold VPipe.removeStep
    rw [if_neg (by omega), if_neg (by omega), if_pos hlt]
    rfl

/-- C9 witness: on a concrete transformer pipe with gen index 1, removing the
gen step raises and removing step 0 decrements the gen index. -/
theorem removeStep_spec_witness :
    (VPipe.mk "t" 1 [.wrappedV ⟨1, false, false, false, false⟩ 0,
        .wrappedV ⟨1, false, false, false, false⟩ 1]
        (some (VPipe.mk "par" 0 [.iterableV [1]] none))).removeStep 1
      = .error (.createPipeException "t"
          "Step at index holds a data generator for this pipe and cannot be removed") ∧
    (0 < 1 →
      (VPipe.mk "t" 1 [.wrappedV ⟨1, false, false, false, false⟩ 0,
          .wrappedV ⟨1, false, false, false, false⟩ 1]
          (some (VPipe.mk "par" 0 [.iterableV [1]] none))).removeStep 0
        = .ok (VPipe.mk "t" 0 [.wrappedV ⟨1, false, false, false, false⟩ 1]
            (some (VPipe.mk "par" 0 [.iterableV [1]] none)))) :=
  removeStep_spec
    (VPipe.mk "t" 1 [.wrappedV ⟨1, false, false, false, false⟩ 0,
      .wrappedV ⟨1, false, false, false, false⟩ 1]
      (some (VPipe.mk "par" 0 [.iterableV [1]] none))) 0 (by decide)

theorem wrapTransformStepMeta_fork (name : String) (hp : Bool) (g : Nat)
    (ie : Bool) (stepNo : Nat) (edges : List (Nat × Int)) (cof : Bool) :
    wrapTransformStepMeta name hp g ie stepNo (.forkV edges cof)
      = .ok (.forkV edges cof) := by
  unfold wrapTransformStepMeta
  cases ie <;>
    simp [isIterableStep, stepSig, forkSig, ensureTransformStep, wrapSig,
      Bind.bind, Except.bind, pure, Except.pure]

theorem appendStep_fork (p : VPipe) (edges : List (Nat × Int)) (cof : Bool)
    (hne : p.steps ≠ []) :
    p.appendStep (.forkV edges cof)
      = .ok (p.setSteps (p.steps ++ [.forkV edges cof])) := by
  unfold VPipe.appendStep
  have hlen : p.steps.length ≠ 0 := by simpa using List.length_pos.2 hne |>.ne'
  rw [if_neg (by simp [hlen])]
  rw [wrapTransformStepMeta_fork]
  rfl

/-- C6: on a pipe whose tail is not yet a `ForkPipe`, the first `fork(child)`
appends a single `ForkPipe` step holding exactly the one edge
`(child, entry_step)` with the given `copy_on_fork`, and a second
`fork(child)` with the same child (any entry step or flag) is a no-op: the
edge is deduplicated by pipe identity. -/
theorem fork_idempotent_per_child (p : VPipe) (c : Nat) (s s2 : Int)
    (cof cof2 : Bool) (hne : p.steps ≠ [])
    (hnf : ∀ edges cofl, p.steps.getLast? ≠ some (.forkV edges cofl)) :
    p.fork c s cof = .ok (p.setSteps (p.steps ++ [.forkV [(c, s)] cof])) ∧
    (p.setSteps (p.steps ++ [.forkV [(c, s)] cof])).fork c s2 cof2
      = .ok (p.setSteps (p.steps ++ [.forkV [(c, s)] cof])) := by
  have hlen : p.steps.length ≠ 0 := by simpa using List.length_pos.2 hne |>.ne'
  constructor
  · unfold VPipe.fork
    rw [if_neg hlen]
    simp only [Bind.bind, Except.bind, pure, Except.pure]
    cases hl : p.steps.getLast? with
    | none => simp [List.getLast?_eq_none_iff] at hl; exact absurd hl hne
    | some v =>
      cases v with
      | forkV edges cofl => exact absurd hl (hnf edges cofl)
      | iterableV xs => exact appendStep_fork p [(c, s)] cof hne
      | iteratorV a => exact appendStep_fork p [(c, s)] cof hne
      | callableV sig tag r => exact appendStep_fork p [(c, s)] cof hne
      | wrappedV sig tag => exact appendStep_fork p [(c, s)] cof hne
      | nonCallableV tag => exact appendStep_fork p [(c, s)] cof hne
  · unfold VPipe.fork
    have hq : (p.setSteps (p.steps ++ [.forkV [(c, s)] cof])).steps
        = p.steps ++ [.forkV [(c, s)] cof] := setSteps_steps _ _
    rw [hq]
    rw [if_neg (by simp)]
    simp only [Bind.bind, Except.bind, pure, Except.pure]
    rw [List.getLast?_concat]
    simp [forkHasPipe]

/-- C6 witness: forking a concrete one-step pipe twice to child 7 yields a
single fork step with one edge. -/
theorem fork_idempotent_per_child_witness :
    (VPipe.mk "p" 0 [.iteratorV 0] none).fork 7 (-1) false
      = .ok (VPipe.mk "p" 0 [.iteratorV 0, .forkV [(7, -1)] false] none) ∧
    (VPipe.mk "p" 0 [.iteratorV 0, .forkV [(7, -1)] false] none).fork 7 (-1) true
      = .ok (VPipe.mk "p" 0 [.iteratorV 0, .forkV [(7, -1)] false] none) :=
  fork_idempotent_per_child (VPipe.mk "p" 0 [.iteratorV 0] none) 7 (-1) (-1)
    false true (by simp [VPipe.steps]) (by intro edges cofl h; simp [VPipe.steps] at h)

theorem forkCallFrom_no_copy (item : Item) (meta : Int) :
    ∀ (edges : List (Nat × Int)) (i0 fresh k : Nat),
      (forkCallFrom false item meta i0 fresh edges)[k]? =
        (edges[k]?).map (fun e => ⟨item, e.2, e.1, meta⟩) := by
  intro edges
  induction edges with
  | nil => intro i0 fresh k; simp [forkCallFrom]
  | cons e rest ih =>
    intro i0 fresh k
    obtain ⟨pip, stp⟩ := e
    rw [forkCallFrom]
    simp only [Bool.not_false, Bool.or_true, if_pos]
    cases k with
    | zero => simp
    | succ k => simpa using ih (i0 + 1) fresh k

theorem forkCallFrom_copy_tail (item : Item) (meta : Int) :
    ∀ (edges : List (Nat × Int)) (i0 fresh k : Nat), 1 ≤ i0 →
      (forkCallFrom true item meta i0 fresh edges)[k]? =
        (edges[k]?).map (fun e => ⟨⟨fresh + k, item.payload⟩, e.2, e.1, meta⟩) := by
  intro edges
  induction edges with
  | nil => intro i0 fresh k hi; simp [forkCallFrom]
  | cons e rest ih =>
    intro i0 fresh k hi
    obtain ⟨pip, stp⟩ := e
    rw [forkCallFrom]
    rw [if_neg (by simp; omega)]
    cases k with
    | zero => simp
    | succ k =>
      have := ih (i0 + 1) (fresh + 1) k (by omega)
      simp only [List.getElem?_cons_succ]
      rw [this]
      have harith : fresh + 1 + k = fresh + (k + 1) := by omega
      rw [harith]

/-- C7: `ForkPipe.__call__` yields exactly one resolvable per edge in edge
order; each resolvable targets that edge's `(child_pipe, entry_step)` with the
unchanged meta; edge 0 carries the item object itself, and each later edge
carries the item itself when `copy_on_fork` is false and a shallow copy (a
fresh address holding the same payload) when it is true; in the copy case the
later items are distinct objects from the input whenever the fresh-address
pool starts above the input address. -/
theorem forkPipe_call_spec (edges : List (Nat × Int)) (cof : Bool)
    (item : Item) (meta : Int) (fresh : Nat) :
    (forkCall edges cof item meta fresh).length = edges.length ∧
    (∀ k, (forkCall edges cof item meta fresh)[k]? =
      (edges[k]?).map (fun e =>
        (⟨if k = 0 || !cof then item else ⟨fresh + (k - 1), item.payload⟩,
          e.2, e.1, meta⟩ : FRes))) ∧
    (∀ k r, 0 < k → cof = true → item.addr < fresh →
      (forkCall edges cof item meta fresh)[k]? = some r →
      r.item ≠ item ∧ r.item.payload = item.payload) := by
  have hmain : ∀ k, (forkCall edges cof item meta fresh)[k]? =
      (edges[k]?).map (fun e =>
        (⟨if k = 0 || !cof then item else ⟨fresh + (k - 1), item.payload⟩,
          e.2, e.1, meta⟩ : FRes)) := by
    intro k
    cases cof with
    | false =>
      rw [forkCall, forkCallFrom_no_copy]
      simp
    | true =>
      cases edges with
      | nil => simp [forkCall, forkCallFrom]
      | cons e rest =>
        obtain ⟨pip, stp⟩ := e
        rw [forkCall, forkCallFrom, if_pos (by simp)]
        cases k with
        | zero => simp
        | succ k =>
          simp only [List.getElem?_cons_succ]
          have h1 := forkCallFrom_copy_tail item meta rest (0 + 1) fresh k (by omega)
          rw [h1]
          simp
  refine ⟨?_, hmain, ?_⟩
  · have : ∀ (es : List (Nat × Int)) (i0 f : Nat),
        (forkCallFrom cof item meta i0 f es).length = es.length := by
      intro es
      induction es with
      | nil => intro i0 f; rfl
      | cons e rest ih =>
        intro i0 f
        obtain ⟨pip, stp⟩ := e
        rw [forkCallFrom]
        by_cases hc : (i0 = 0 || !cof) = true
        · rw [if_pos hc]; simp [ih]
        · rw [if_neg hc]; simp [ih]
    exact this edges 0 fresh
  · intro k r hk hcof haddr hr
    rw [hmain k] at hr
    cases he : edges[k]? with
    | none => rw [he] at hr; simp at hr
    | some e =>
      rw [he] at hr
      simp only [Option.map_some', Option.some.injEq] at hr
      subst hr
      subst hcof
      rw [if_neg (by simp; omega)]
      refine ⟨?_, rfl⟩
      intro hcontra
      have : fresh + (k - 1) = item.addr := congrArg Item.addr hcontra
      omega

/-- C7 witness: two edges with copy-on-fork; the first resolvable carries the
item itself, the second a fresh copy with the same payload. -/
theorem forkPipe_call_spec_witness :
    (forkCall [(5, -1), (8, 0)] true ⟨3, 42⟩ 9 10).length = 2 ∧
    (forkCall [(5, -1), (8, 0)] true ⟨3, 42⟩ 9 10)[0]? =
      some ⟨⟨3, 42⟩, -1, 5, 9⟩ ∧
    (forkCall [(5, -1), (8, 0)] true ⟨3, 42⟩ 9 10)[1]? =
      some ⟨⟨10, 42⟩, 0, 8, 9⟩ ∧
    (⟨10, 42⟩ : Item) ≠ ⟨3, 42⟩ := by
  have h := forkPipe_call_spec [(5, -1), (8, 0)] true ⟨3, 42⟩ 9 10
  refine ⟨h.1, ?_, ?_, ?_⟩
  · have := h.2.1 0
    simpa using this
  · have := h.2.1 1
    simpa using this
  · exact (h.2.2 1 ⟨⟨10, 42⟩, 0, 8, 9⟩ (by omega) rfl (by decide)
      (by simpa using h.2.1 1)).1

theorem setSteps_parent (p : VPipe) (st : List StepVal) :
    (p.setSteps st).parent = p.parent := by
  cases p; rfl

theorem list_set_self {α : Type} (l : List α) (n : Nat) (x : α)
    (h : l[n]? = some x) : l.set n x = l := by
  induction l generalizing n with
  | nil => simp at h
  | cons a t ih =>
    cases n with
    | zero => simp at h; simp [h]
    | succ n =>
      simp only [List.getElem?_cons_succ] at h
      simp [ih n h]

theorem evaluateGen_pres (p q : VPipe) (c c' : Nat)
    (h : p.evaluateGen c = .ok (q, c')) :
    q.parent = p.parent ∧ q.genIdx = p.genIdx := by
  unfold VPipe.evaluateGen at h
  by_cases hb : (!p.isDataBound) = true
  · rw [if_pos hb] at h
    simp [Bind.bind, Except.bind, pure, Except.pure, throw, throwThe,
      MonadExceptOf.throw] at h
  · rw [if_neg hb] at h
    simp only [Bind.bind, Except.bind, pure, Except.pure] at h
    cases hg : p.gen? with
    | none =>
      simp only [hg] at h
      simp [throw, throwThe, MonadExceptOf.throw] at h
    | some gen =>
      simp only [hg] at h
      by_cases hp : (!p.hasParent) = true
      · rw [if_pos hp] at h
        by_cases hcall : isCallableStep gen = true
        · rw [if_pos hcall] at h
          cases hz : callZero gen with
          | error e =>
            simp only [hz] at h
            simp [throw, throwThe, MonadExceptOf.throw] at h
          | ok res =>
            simp only [hz, Except.ok.injEq, Prod.mk.injEq] at h
            obtain ⟨hq, -⟩ := h
            subst hq
            exact ⟨setSteps_parent _ _, setSteps_genIdx _ _⟩
        · rw [if_neg hcall] at h
          by_cases hit : isIterableStep gen = true
          · rw [if_pos hit] at h
            simp only [Except.ok.injEq, Prod.mk.injEq] at h
            obtain ⟨hq, -⟩ := h
            subst hq
            exact ⟨setSteps_parent _ _, setSteps_genIdx _ _⟩
          · rw [if_neg hit] at h
            simp only [Except.ok.injEq, Prod.mk.injEq] at h
            obtain ⟨hq, -⟩ := h
            subst hq
            exact ⟨rfl, rfl⟩
      · rw [if_neg hp] at h
        cases he : ensureTransformStep p.name p.genIdx p.genIdx gen with
        | error e =>
          simp only [he] at h
          simp at h
        | ok u =>
          simp only [he, Except.ok.injEq, Prod.mk.injEq] at h
          obtain ⟨hq, -⟩ := h
          subst hq
          exact ⟨rfl, rfl⟩

/-- C10: `evaluate_gen` is idempotent on a parentless pipe once a first
successful call has installed an iterator in the head slot: the second call
finds a non-callable iterable head and replaces it by `iter` of itself, which
is the same object, so the pipe and the allocation counter are unchanged. -/
theorem evaluateGen_idempotent (p q : VPipe) (c c' : Nat)
    (hnp : p.parent = none) (hg : p.genIdx = 0)
    (h1 : p.evaluateGen c = .ok (q, c'))
    (hit : isIteratorStep (q.steps.getD 0 (.nonCallableV 0)) = true) :
    q.evaluateGen c' = .ok (q, c') := by
  obtain ⟨hqp, hqg⟩ := evaluateGen_pres p q c c' h1
  rw [hnp] at hqp
  rw [hg] at hqg
  obtain ⟨a, ha⟩ : ∃ a, q.steps[0]? = some (.iteratorV a) := by
    cases h0 : q.steps[0]? with
    | none =>
      rw [List.getD_eq_getElem?_getD, h0] at hit
      simp [isIteratorStep] at hit
    | some v =>
      rw [List.getD_eq_getElem?_getD, h0] at hit
      cases v with
      | iteratorV a => exact ⟨a, rfl⟩
      | iterableV xs => simp [isIteratorStep] at hit
      | callableV sig tag r => simp [isIteratorStep] at hit
      | wrappedV sig tag => simp [isIteratorStep] at hit
      | forkV edges cofl => simp [isIteratorStep] at hit
      | nonCallableV tag => simp [isIteratorStep] at hit
  have hne : ¬q.steps.isEmpty := by
    cases hs : q.steps with
    | nil => rw [hs] at ha; simp at ha
    | cons x t => simp
  unfold VPipe.evaluateGen
  have hdb : q.isDataBound = true := by
    cases q with
    | mk n g st par =>
      simp only [VPipe.parent] at hqp
      subst hqp
      simpa [VPipe.isDataBound] using hne
  rw [if_neg (by simp [hdb])]
  have hgen : q.gen? = some (.iteratorV a) := by
    rw [VPipe.gen?, hqg, ha]
  simp only [Bind.bind, Except.bind, pure, Except.pure]
  simp only [hgen]
  have hpar : (!q.hasParent) = true := by simp [VPipe.hasParent, hqp]
  rw [if_pos hpar]
  rw [if_neg (by simp [isCallableStep, stepSig])]
  rw [if_pos (by simp [isIterableStep])]
  simp only [iterOfStep]
  rw [list_set_self q.steps 0 (.iteratorV a) ha]
  cases q with
  | mk n g st par => simp [VPipe.setSteps, VPipe.steps]

/-- C10 witness: a parentless pipe whose head is a raw list; the first
`evaluate_gen` installs a fresh iterator, the second changes nothing. -/
theorem evaluateGen_idempotent_witness :
    (VPipe.mk "p" 0 [.iterableV [1, 2]] none).evaluateGen 0
      = .ok (VPipe.mk "p" 0 [.iteratorV 0] none, 1) ∧
    (VPipe.mk "p" 0 [.iteratorV 0] none).evaluateGen 1
      = .ok (VPipe.mk "p" 0 [.iteratorV 0] none, 1) := by
  constructor
  · rfl
  · exact evaluateGen_idempotent (VPipe.mk "p" 0 [.iterableV [1, 2]] none)
      (VPipe.mk "p" 0 [.iteratorV 0] none) 0 1 rfl rfl rfl (by decide)

/-- A Python value that can travel through the dispatcher: a plain data item,
`None`, an iterator (with the items it will yield), an awaitable or a deferred
zero-argument callable (each carrying the outcome its future will produce), a
`DataItemWithMeta` wrapper, or a `ResolvablePipeItem` (item, step, pipe,
meta). -/
inductive PyVal where
  | vdata (n : Int)
  | vnone
  | viter (xs : List PyVal)
  | vawaitOk (v : PyVal)
  | vawaitErr (e : PyExn)
  | vcallOk (v : PyVal)
  | vcallErr (e : PyExn)
  | vmeta (d : PyVal) (m : PyVal)
  | vresolvable (item : PyVal) (step : Int) (pipe : Nat) (meta : PyVal)

/-- `isinstance(item, Iterator)` on a dispatched value. -/
def isIterV : PyVal → Bool
  | .viter _ => true
  | _ => false

/-- `isinstance(item, Awaitable)` on a dispatched value. -/
def isAwaitV : PyVal → Bool
  | .vawaitOk _ => true
  | .vawaitErr _ => true
  | _ => false

/-- `callable(item)` on a dispatched value. -/
def isCallV : PyVal → Bool
  | .vcallOk _ => true
  | .vcallErr _ => true
  | _ => false

/-- A transform step callable as the dispatcher sees it: whether the call
`step(item, meta=meta)` binds, and the body run when it does.  A body may
return a value or raise (`Except.error`). -/
structure PyCallable where
  bindsItemMeta : Bool
  body : PyVal → PyVal → Except PyExn PyVal

/-- Calling a transform step: a signature mismatch raises `TypeError` from the
call machinery itself, otherwise the body runs. -/
def callTransform (f : PyCallable) (item meta : PyVal) : Except PyExn PyVal :=
  if f.bindsItemMeta then f.body item meta
  else .error (.typeError "signature mismatch")

/-- One slot of a pipe as the dispatcher indexes it: the already-evaluated
head iterator slot, or a transform callable. -/
inductive DStep where
  | iterStep
  | callStep (f : PyCallable)

/-- A pipe as referenced by in-flight items: its name and step list.  Items
reference pipes by index into `DState.pipes`, modelling Python object
references. -/
structure DPipe where
  name : String
  steps : List DStep

/-- `ResolvablePipeItem`. -/
structure RPI where
  item : PyVal
  step : Int
  pipe : Nat
  meta : PyVal

/-- `SourcePipeItem`: the remaining items of a live iterator plus its routing
data. -/
structure SrcItem where
  gen : List PyVal
  step : Int
  pipe : Nat
  meta : PyVal

/-- A future as the driver observes it: whether it is done, whether it was
cancelled, and the outcome it will deliver (`exception()` or `result()`). -/
structure MFuture where
  done : Bool
  cancelled : Bool
  res : Except PyExn PyVal

/-- `FuturePipeItem`. -/
structure FutItem where
  fut : MFuture
  step : Int
  pipe : Nat
  meta : PyVal

/-- The dispatcher state: the pipes (fixed during iteration), the parallelism
bound, `_sources`, `_futures`, and the loop variable `pipe_item` of
`__next__`. -/
structure DState where
  pipes : List DPipe
  maxParallelItems : Nat
  sources : List SrcItem
  futures : List FutItem
  cur : Option RPI

/-- Python list indexing with negative-index wraparound, as used by
`pipe[pipe_item.step + 1]`. -/
def pyListGet {α : Type} (l : List α) (i : Int) : Option α :=
  if 0 ≤ i then l[i.toNat]?
  else if i.natAbs ≤ l.length then l[l.length - i.natAbs]? else none

/-- Wrapping of a value pulled from a source iterator
(`PipeIterator._get_source_item`): a `ResolvablePipeItem` passes unchanged, a
`DataItemWithMeta` replaces the meta, anything else keeps the source's step,
pipe and meta. -/
def unwrapSrc (x : PyVal) (step : Int) (pipe : Nat) (meta : PyVal) : RPI :=
  match x with
  | .vresolvable it st pp m => ⟨it, st, pp, m⟩
  | .vmeta d m => ⟨d, step, pipe, m⟩
  | v => ⟨v, step, pipe, meta⟩

/-- `PipeIterator._get_source_item` seen from the top of the source stack:
`_sources[-1]` is the head of the reversed list, an exhausted source is
popped (`StopIteration`) and the next one tried. -/
def getSourceItemStack : List SrcItem → Option RPI × List SrcItem
  | [] => (none, [])
  | s :: rest =>
    match s.gen with
    | [] => getSourceItemStack rest
    | x :: tail =>
      (some (unwrapSrc x s.step s.pipe s.meta), { s with gen := tail } :: rest)

/-- `PipeIterator._get_source_item` on `_sources` in list order (the source
appends new iterators at the end and reads from the end, so the stack view is
the reversed list). -/
def getSourceItem (ss : List SrcItem) : Option RPI × List SrcItem :=
  let r := getSourceItemStack ss.reverse
  (r.1, r.2.reverse)

/-- `PipeIterator._next_future`: index of the first done future, if any. -/
def nextFutureIdx (fs : List FutItem) : Option Nat :=
  fs.findIdx? (fun f => f.fut.done)

/-- `PipeIterator._resolve_futures`: pop the first done future; a cancelled
one is skipped (recursing), a failed one re-raises its stored exception, a
result is wrapped as a resolvable (with meta replaced for
`DataItemWithMeta`).  The fuel bounds the number of cancelled futures popped
in a row; since every recursive call removes one list entry, the list length
always suffices. -/
def resolveFuturesAux : Nat → List FutItem → Except PyExn (Option RPI) × List FutItem
  | 0, fs => (.ok none, fs)
  | fuel + 1, fs =>
    match nextFutureIdx fs with
    | none => (.ok none, fs)
    | some i =>
      match fs[i]? with
      | none => (.ok none, fs)
      | some f =>
        let fs' := fs.eraseIdx i
        if f.fut.cancelled then resolveFuturesAux fuel fs'
        else
          match f.fut.res with
          | .error e => (.error e, fs')
          | .ok item =>
            match item with
            | .vmeta d m => (.ok (some ⟨d, f.step, f.pipe, m⟩), fs')
            | v => (.ok (some ⟨v, f.step, f.pipe, f.meta⟩), fs')

def resolveFutures (fs : List FutItem) : Except PyExn (Option RPI) × List FutItem :=
  resolveFuturesAux fs.length fs

/-- `item is None`. -/
def isNoneV : PyVal → Bool
  | .vnone => true
  | _ => false

/-- The items a value of iterator kind will yield. -/
def iterItems : PyVal → List PyVal
  | .viter xs => xs
  | _ => []

/-- `isinstance(x, DataItemWithMeta)`. -/
def isDimV : PyVal → Bool
  | .vmeta _ _ => true
  | _ => false

/-- `x.data` of a `DataItemWithMeta` (identity on other values). -/
def dimData : PyVal → PyVal
  | .vmeta d _ => d
  | v => v

/-- `x.meta` of a `DataItemWithMeta` (the given default on other values). -/
def dimMeta (dflt : PyVal) : PyVal → PyVal
  | .vmeta _ m => m
  | _ => dflt

/-- The future created when a callable or awaitable item is submitted to the
thread pool or the async loop: not yet done, not cancelled, and it will
deliver the item's outcome. -/
def submitFuture : PyVal → MFuture
  | .vawaitOk v => ⟨false, false, .ok v⟩
  | .vawaitErr e => ⟨false, false, .error e⟩
  | .vcallOk v => ⟨false, false, .ok v⟩
  | .vcallErr e => ⟨false, false, .error e⟩
  | _ => ⟨false, false, .ok .vnone⟩

/-- Outcome of one pass through the `while True` body of
`PipeIterator.__next__`: continue looping (this also covers the
`sleep(...); continue` paths, a sleep changing no driver state), return a
`PipeItem`, or raise. -/
inductive BodyOut where
  | cont (st : DState)
  | yieldItem (it : RPI) (st : DState)
  | raised (e : PyExn) (st : DState)

/-- One pass through the loop body of `PipeIterator.__next__` (source lines
417-485).  With no current `pipe_item` the driver drains completed futures,
then pulls from the newest source, raising `StopIteration` when both lists
are exhausted and sleeping otherwise.  With a current item: an iterator value
becomes a new source; a callable or awaitable is submitted when a slot is
free (fewer than `max_parallel_items` futures, or one already done) and
otherwise the driver sleeps keeping the item; an item at the last step of its
pipe is returned; otherwise the next transform step runs — a `TypeError`
from the call is wrapped as `InvalidStepFunctionArguments`, a
`DataItemWithMeta` result replaces the meta, a `None` result drops the item,
any other result advances it one step. -/
def bodyStep (st : DState) : BodyOut :=
  match st.cur with
  | none =>
    let rf :=
      if st.futures.length > 0 then resolveFutures st.futures
      else (.ok none, st.futures)
    match rf.1 with
    | .error e => .raised e { st with futures := rf.2 }
    | .ok p1 =>
      let gs :=
        match p1 with
        | some pi => (some pi, st.sources)
        | none => getSourceItem st.sources
      match gs.1 with
      | none =>
        if rf.2.length = 0 ∧ gs.2.length = 0 then
          .raised .stopIteration { st with futures := rf.2, sources := gs.2 }
        else
          .cont { st with futures := rf.2, sources := gs.2 }
      | some pi =>
        .cont { st with futures := rf.2, sources := gs.2, cur := some pi }
  | some pi =>
    if isIterV pi.item then
      .cont { st with
        sources := st.sources ++ [⟨iterItems pi.item, pi.step, pi.pipe, pi.meta⟩]
        cur := none }
    else if isAwaitV pi.item || isCallV pi.item then
      if st.futures.length < st.maxParallelItems ∨ (nextFutureIdx st.futures).isSome then
        .cont { st with
          futures := st.futures ++ [⟨submitFuture pi.item, pi.step, pi.pipe, pi.meta⟩]
          cur := none }
      else
        .cont st
    else
      let pn := st.pipes.getD pi.pipe ⟨"", []⟩
      if pi.step = (pn.steps.length : Int) - 1 then
        if isIterV pi.item || isAwaitV pi.item || isCallV pi.item then
          .raised (.pipeItemProcessingError pn.name) st
        else
          .yieldItem pi st
      else
        match pyListGet pn.steps (pi.step + 1) with
        | none => .raised .indexError st
        | some .iterStep => .raised .assertionError st
        | some (.callStep f) =>
          match callTransform f pi.item pi.meta with
          | .error (.typeError m) =>
            .raised (.invalidStepFunctionArguments pn.name m) st
          | .error e => .raised e st
          | .ok r =>
            let nm := if isDimV r then dimMeta pi.meta r else pi.meta
            let ni := dimData r
            if !isNoneV ni then
              .cont { st with cur := some ⟨ni, pi.step + 1, pi.pipe, nm⟩ }
            else
              .cont { st with cur := none }

/-- The local variable `pipe_item` dies when `__next__` returns or raises. -/
def clearCur (st : DState) : DState :=
  { st with cur := none }

/-- `PipeIterator.close`: every non-done future is cancelled and the futures
list cleared; generator sources are closed and the sources list cleared (the
pool and loop teardown have no footprint in this state). -/
def closeIter (st : DState) : DState :=
  { st with futures := [], sources := [] }

/-- `PipeIterator.__next__` run to completion (deterministically, with fuel
standing for the unbounded `while True`): iterate the loop body until a
return or a raise. -/
inductive NextOut where
  | yielded (it : RPI) (st : DState)
  | raisedOut (e : PyExn) (st : DState)
  | fuelOut (st : DState)

def runNext : Nat → DState → NextOut
  | 0, st => .fuelOut st
  | fuel + 1, st =>
    match bodyStep st with
    | .cont st' => runNext fuel st'
    | .yieldItem it st' => .yielded it (clearCur st')
    | .raised e st' => .raisedOut e (clearCur st')

/-- The value of the PipeItem a finished `runNext` returned, if any. -/
def yieldedValue : NextOut → Option PyVal
  | .yielded it _ => some it.item
  | _ => none

/-- The exception a finished `runNext` raised, if any. -/
def raisedExn : NextOut → Option PyExn
  | .raisedOut e _ => some e
  | _ => none

/-- The exception one loop pass raised, if any. -/
def bodyRaised : BodyOut → Option PyExn
  | .raised e _ => some e
  | _ => none

/-- How `PipeIterator.__next__` maps an exception escaping a transform call:
a `TypeError` is wrapped as `InvalidStepFunctionArguments`, anything else
propagates unchanged. -/
def wrapStepExn (pipeName : String) : PyExn → PyExn
  | .typeError m => .invalidStepFunctionArguments pipeName m
  | e => e

/-- C3 (amended): when invoking the next transform step raises, the dispatcher
raises `InvalidStepFunctionArguments` exactly when the escaping exception is a
`TypeError` — whether it came from a signature mismatch of the call or from
the step's own body, since the `except TypeError` clause cannot tell them
apart — and re-raises any non-`TypeError` exception unchanged. -/
theorem transform_exception_wrapping (st : DState) (pi : RPI) (f : PyCallable)
    (e : PyExn) (hcur : st.cur = some pi)
    (hni : isIterV pi.item = false) (hna : isAwaitV pi.item = false)
    (hnc : isCallV pi.item = false)
    (hnl : pi.step ≠ ((st.pipes.getD pi.pipe ⟨"", []⟩).steps.length : Int) - 1)
    (hstep : pyListGet (st.pipes.getD pi.pipe ⟨"", []⟩).steps (pi.step + 1)
      = some (.callStep f))
    (herr : callTransform f pi.item pi.meta = .error e) :
    bodyStep st = .raised (wrapStepExn (st.pipes.getD pi.pipe ⟨"", []⟩).name e) st := by
  unfold bodyStep
  simp only [hcur, hni, hna, hnc, Bool.or_self, Bool.false_eq_true, if_false]
  rw [if_neg hnl]
  simp only [hstep, herr]
  cases e <;> rfl

/-- C3 counterexample: a transform step whose signature is fine but whose own
body raises `TypeError` is reported as `InvalidStepFunctionArguments`, not
re-raised unchanged, contradicting the claim that only signature mismatches
are wrapped. -/
theorem transform_exception_wrapping_counterexample :
    bodyRaised (bodyStep
      ⟨[⟨"p", [.iterStep,
          .callStep ⟨true, fun _ _ => .error (.typeError "boom")⟩]⟩],
        20, [], [], some ⟨.vdata 1, 0, 0, .vnone⟩⟩)
      = some (.invalidStepFunctionArguments "p" "boom") ∧
    bodyRaised (bodyStep
      ⟨[⟨"p", [.iterStep,
          .callStep ⟨true, fun _ _ => .error (.typeError "boom")⟩]⟩],
        20, [], [], some ⟨.vdata 1, 0, 0, .vnone⟩⟩)
      ≠ some (.typeError "boom") := by
  refine ⟨rfl, ?_⟩
  intro hcontra
  exact PyExn.noConfusion (Option.some.inj hcontra)

/-- C3 witness: on a concrete state whose next step body raises a plain
non-`TypeError` exception, the dispatcher re-raises it unchanged. -/
theorem transform_exception_wrapping_witness :
    bodyStep
      ⟨[⟨"p", [.iterStep,
          .callStep ⟨true, fun _ _ => .error (.otherError "db down")⟩]⟩],
        20, [], [], some ⟨.vdata 1, 0, 0, .vnone⟩⟩
      = .raised (.otherError "db down")
        ⟨[⟨"p", [.iterStep,
            .callStep ⟨true, fun _ _ => .error (.otherError "db down")⟩]⟩],
          20, [], [], some ⟨.vdata 1, 0, 0, .vnone⟩⟩ :=
  transform_exception_wrapping _ ⟨.vdata 1, 0, 0, .vnone⟩
    ⟨true, fun _ _ => .error (.otherError "db down")⟩ (.otherError "db down")
    rfl rfl rfl rfl (by decide) rfl rfl

/-- C2 (amended): a `None` returned by a transform step drops the current
item — the driver continues with no current item, so nothing downstream sees
it and nothing is yielded for it; but a `None` that arrives as the current
item value at the final step of its pipe (as happens when a source iterator
yields a literal `None` on a single-step pipe) is returned as a `PipeItem`
whose value is `None`. -/
theorem none_value_handling :
    (∀ (st : DState) (pi : RPI) (f : PyCallable),
      st.cur = some pi → isIterV pi.item = false → isAwaitV pi.item = false →
      isCallV pi.item = false →
      pi.step ≠ ((st.pipes.getD pi.pipe ⟨"", []⟩).steps.length : Int) - 1 →
      pyListGet (st.pipes.getD pi.pipe ⟨"", []⟩).steps (pi.step + 1)
        = some (.callStep f) →
      callTransform f pi.item pi.meta = .ok .vnone →
      bodyStep st = .cont (clearCur st)) ∧
    (∀ (st : DState) (pi : RPI),
      st.cur = some pi → pi.item = .vnone →
      pi.step = ((st.pipes.getD pi.pipe ⟨"", []⟩).steps.length : Int) - 1 →
      bodyStep st = .yieldItem pi st) := by
  constructor
  · intro st pi f hcur hni hna hnc hnl hstep hok
    unfold bodyStep
    simp only [hcur, hni, hna, hnc, Bool.or_self, Bool.false_eq_true, if_false]
    rw [if_neg hnl]
    simp only [hstep, hok]
    rfl
  · intro st pi hcur hnone hlast
    unfold bodyStep
    simp only [hcur]
    rw [if_neg (by simp [hnone, isIterV]),
      if_neg (by simp [hnone, isAwaitV, isCallV])]
    rw [if_pos hlast]
    rw [if_neg (by simp [isIterV, isAwaitV, isCallV, hnone])]

/-- C2 counterexample: a source iterator yielding a literal `None` on a
single-step pipe makes `__next__` return a `PipeItem` whose value is `None`,
contradicting the claim that no returned `PipeItem` ever has a `None`
value. -/
theorem none_value_handling_counterexample :
    yieldedValue (runNext 3
      ⟨[⟨"p", [.iterStep]⟩], 20, [⟨[.vnone], 0, 0, .vnone⟩], [], none⟩)
      = some .vnone := by
  rfl

/-- C2 witness: a transform returning `None` on a concrete item drops it, and
a `None` current item at the final step of a concrete pipe is yielded. -/
theorem none_value_handling_witness :
    bodyStep
      ⟨[⟨"p", [.iterStep, .callStep ⟨true, fun _ _ => .ok .vnone⟩]⟩],
        20, [], [], some ⟨.vdata 2, 0, 0, .vnone⟩⟩
      = .cont (clearCur
          ⟨[⟨"p", [.iterStep, .callStep ⟨true, fun _ _ => .ok .vnone⟩]⟩],
            20, [], [], some ⟨.vdata 2, 0, 0, .vnone⟩⟩) ∧
    bodyStep
      ⟨[⟨"p", [.iterStep]⟩], 20, [⟨[], 0, 0, .vnone⟩], [],
        some ⟨.vnone, 0, 0, .vnone⟩⟩
      = .yieldItem ⟨.vnone, 0, 0, .vnone⟩
        ⟨[⟨"p", [.iterStep]⟩], 20, [⟨[], 0, 0, .vnone⟩], [],
          some ⟨.vnone, 0, 0, .vnone⟩⟩ :=
  ⟨none_value_handling.1 _ ⟨.vdata 2, 0, 0, .vnone⟩
      ⟨true, fun _ _ => .ok .vnone⟩ rfl rfl rfl rfl (by decide) rfl rfl,
    none_value_handling.2 _ ⟨.vnone, 0, 0, .vnone⟩ rfl rfl (by decide)⟩

/-- The argument `ManagedPipeIterator.__next__` passes to the scoped context
manager's `__exit__`: no failure information for `StopIteration`, the
exception information otherwise. -/
def exitArgOf (e : PyExn) : Option PyExn :=
  if e = .stopIteration then none else some e

/-- `ManagedPipeIterator.__next__`: delegate to the dispatcher; on any
exception release the context manager (when one is set, recording what
`__exit__` received), close the dispatcher, and re-raise. -/
def managedNext (fuel : Nat) (st : DState) (ctxSet : Bool)
    (exitLog : List (Option PyExn)) : NextOut × List (Option PyExn) :=
  match runNext fuel st with
  | .yielded it st' => (.yielded it st', exitLog)
  | .raisedOut e st' =>
    (.raisedOut e (closeIter st'),
      if ctxSet then exitLog ++ [exitArgOf e] else exitLog)
  | .fuelOut st' => (.fuelOut st', exitLog)

/-- C8: with a scoped context manager set, a `StopIteration` escaping the
underlying `__next__` releases the context manager with no failure
information, while any other exception releases it with that exception's
information; in both cases the dispatcher is closed (futures cancelled and
cleared, sources cleared) and the same exception is re-raised. -/
theorem managedNext_spec (fuel : Nat) (st st0 : DState) (e : PyExn)
    (exitLog : List (Option PyExn))
    (h : runNext fuel st = .raisedOut e st0) :
    managedNext fuel st true exitLog
      = (.raisedOut e (closeIter st0), exitLog ++ [exitArgOf e]) ∧
    (e = .stopIteration → exitArgOf e = none) ∧
    (e ≠ .stopIteration → exitArgOf e = some e) ∧
    (closeIter st0).futures = [] ∧ (closeIter st0).sources = [] := by
  refine ⟨?_, ?_, ?_, rfl, rfl⟩
  · unfold managedNext
    rw [h]
    simp
  · intro he
    simp [exitArgOf, he]
  · intro he
    simp [exitArgOf, he]

/-- The number of in-flight futures: entries of `_futures` whose underlying
future is not yet done. -/
def inflight (fs : List FutItem) : Nat :=
  fs.countP (fun f => !f.fut.done)

/-- A future completing in the background: its done flag turns on. -/
def markFutDone (f : FutItem) : FutItem :=
  { f with fut := { f.fut with done := true } }

/-- A future being cancelled: `Future.cancel` succeeds only before the task
starts, after which `done()` reports true and `cancelled()` true. -/
def markFutCancelled (f : FutItem) : FutItem :=
  { f with fut := { f.fut with done := true, cancelled := true } }

theorem countP_eraseIdx_le {α : Type} (p : α → Bool) :
    ∀ (l : List α) (i : Nat), (l.eraseIdx i).countP p ≤ l.countP p := by
  intro l
  induction l with
  | nil => intro i; simp [List.eraseIdx]
  | cons a t ih =>
    intro i
    cases i with
    | zero =>
      rw [List.eraseIdx_cons_zero, List.countP_cons]
      exact Nat.le_add_right _ _
    | succ i =>
      rw [List.eraseIdx_cons_succ, List.countP_cons, List.countP_cons]
      exact Nat.add_le_add_right (ih i) _

theorem countP_set_false {α : Type} (p : α → Bool) :
    ∀ (l : List α) (i : Nat) (x : α), p x = false →
      (l.set i x).countP p ≤ l.countP p := by
  intro l
  induction l with
  | nil => intro i x hx; simp
  | cons a t ih =>
    intro i x hx
    cases i with
    | zero =>
      rw [List.set_cons_zero, List.countP_cons, List.countP_cons, hx]
      simp only [Bool.false_eq_true, if_false, Nat.add_zero]
      exact Nat.le_add_right _ _
    | succ i =>
      rw [List.set_cons_succ, List.countP_cons, List.countP_cons]
      exact Nat.add_le_add_right (ih i x hx) _

theorem inflight_le_length (fs : List FutItem) : inflight fs ≤ fs.length :=
  List.countP_le_length _

theorem inflight_lt_of_done (fs : List FutItem)
    (h : ∃ f ∈ fs, f.fut.done = true) : inflight fs < fs.length := by
  rcases h with ⟨f, hmem, hdone⟩
  rcases Nat.lt_or_ge (inflight fs) fs.length with hlt | hge
  · exact hlt
  · have heq : fs.countP (fun f => !f.fut.done) = fs.length :=
      Nat.le_antisymm (List.countP_le_length _) hge
    have := List.countP_eq_length.mp heq f hmem
    rw [hdone] at this
    simp at this

theorem nextFutureIdx_isSome_of_done (fs : List FutItem)
    (h : ∃ f ∈ fs, f.fut.done = true) : (nextFutureIdx fs).isSome := by
  rw [nextFutureIdx, List.findIdx?_isSome]
  rcases h with ⟨f, hmem, hdone⟩
  exact List.any_eq_true.mpr ⟨f, hmem, hdone⟩

theorem resolveFuturesAux_len (fuel : Nat) :
    ∀ (fs : List FutItem), (resolveFuturesAux fuel fs).2.length ≤ fs.length := by
  induction fuel with
  | zero => intro fs; exact Nat.le_refl _
  | succ n ih =>
    intro fs
    unfold resolveFuturesAux
    repeat' split
    all_goals
      first
      | exact Nat.le_refl _
      | exact le_trans (ih _) (List.length_eraseIdx_le fs _)
      | exact List.length_eraseIdx_le fs _

theorem resolveFuturesAux_inflight (fuel : Nat) :
    ∀ (fs : List FutItem),
      inflight (resolveFuturesAux fuel fs).2 ≤ inflight fs := by
  induction fuel with
  | zero => intro fs; exact Nat.le_refl _
  | succ n ih =>
    intro fs
    unfold resolveFuturesAux
    repeat' split
    all_goals
      first
      | exact Nat.le_refl _
      | exact le_trans (ih _) (countP_eraseIdx_le _ fs _)
      | exact countP_eraseIdx_le _ fs _

theorem resolveFuturesAux_shrink (n : Nat) (fs : List FutItem) (i : Nat)
    (hi : nextFutureIdx fs = some i) :
    (resolveFuturesAux (n + 1) fs).2.length < fs.length := by
  have hlt : i < fs.length :=
    (List.findIdx?_eq_some_iff_findIdx_eq.mp hi).1
  have h1 : (fs.eraseIdx i).length = fs.length - 1 :=
    List.length_eraseIdx_of_lt hlt
  have h0 : 0 < fs.length := Nat.lt_of_le_of_lt (Nat.zero_le i) hlt
  unfold resolveFuturesAux
  simp only [hi]
  simp only [List.getElem?_eq_getElem hlt]
  repeat' split
  all_goals
    first
    | exact Nat.lt_of_le_of_lt (resolveFuturesAux_len n _) (by omega)
    | exact (show (fs.eraseIdx i).length < fs.length by omega)

theorem resolveFutures_len (fs : List FutItem) :
    (resolveFutures fs).2.length ≤ fs.length :=
  resolveFuturesAux_len fs.length fs

theorem resolveFutures_inflight (fs : List FutItem) :
    inflight (resolveFutures fs).2 ≤ inflight fs :=
  resolveFuturesAux_inflight fs.length fs

theorem resolveFutures_shrink (fs : List FutItem)
    (h : ∃ f ∈ fs, f.fut.done = true) :
    (resolveFutures fs).2.length < fs.length := by
  have hsome := nextFutureIdx_isSome_of_done fs h
  rcases Option.isSome_iff_exists.mp hsome with ⟨i, hi⟩
  have hlt : i < fs.length := (List.findIdx?_eq_some_iff_findIdx_eq.mp hi).1
  have h0 : 0 < fs.length := Nat.lt_of_le_of_lt (Nat.zero_le i) hlt
  rw [resolveFutures]
  cases hl : fs.length with
  | zero => omega
  | succ n =>
    rw [← hl]
    rw [hl]
    exact hl ▸ resolveFuturesAux_shrink n fs i hi

theorem submitFuture_not_done (v : PyVal) : (submitFuture v).done = false := by
  cases v <;> rfl

/-- The dispatcher as a transition system.  Observable moments are states;
transitions are a future completing or being cancelled in the background, one
pass through the loop body of `__next__` (with the local `pipe_item` cleared
on return or raise), and an external `close()`. -/
inductive DTrans : DState → DState → Prop where
  | completeFut (st : DState) (i : Nat) (h : i < st.futures.length) :
      DTrans st { st with futures := st.futures.set i (markFutDone st.futures[i]) }
  | cancelFut (st : DState) (i : Nat) (h : i < st.futures.length) :
      DTrans st { st with futures := st.futures.set i (markFutCancelled st.futures[i]) }
  | loopCont (st st' : DState) : bodyStep st = .cont st' → DTrans st st'
  | loopYield (st st' : DState) (it : RPI) :
      bodyStep st = .yieldItem it st' → DTrans st (clearCur st')
  | loopRaise (st st' : DState) (e : PyExn) :
      bodyStep st = .raised e st' → DTrans st (clearCur st')
  | closeCall (st : DState) : DTrans st (closeIter st)

/-- The inductive invariant of the dispatcher: the in-flight count never
exceeds `max_parallel_items`; the futures list itself holds at most one entry
more, and only transiently — while the driver is between a submission and the
next drain (no current `pipe_item`), with a done entry guaranteeing the next
drain pops. -/
def DInv (st : DState) : Prop :=
  inflight st.futures ≤ st.maxParallelItems ∧
  st.futures.length ≤ st.maxParallelItems + 1 ∧
  (st.cur ≠ none → st.futures.length ≤ st.maxParallelItems) ∧
  (st.futures.length = st.maxParallelItems + 1 →
    ∃ f ∈ st.futures, f.fut.done = true)

/-- The submission guard of `__next__` line 445: there is a free slot, or
some future is already done. -/
def guardProp (st : DState) : Prop :=
  st.futures.length < st.maxParallelItems ∨ ∃ f ∈ st.futures, f.fut.done = true

theorem done_of_nextFutureIdx_isSome (fs : List FutItem)
    (h : (nextFutureIdx fs).isSome) : ∃ f ∈ fs, f.fut.done = true := by
  rw [nextFutureIdx, List.findIdx?_isSome] at h
  exact List.any_eq_true.mp h

/-- After draining futures (or leaving them alone), a state whose futures list
shrank — and shrank below the cap if it was above it — satisfies the
invariant for any sources and current item. -/
theorem DInv_after_drain (st : DState) (hinv : DInv st) (fs' : List FutItem)
    (s' : List SrcItem) (cur' : Option RPI)
    (hlen2 : fs'.length ≤ st.futures.length)
    (hinf2 : inflight fs' ≤ inflight st.futures)
    (hsm : st.futures.length = st.maxParallelItems + 1 →
      fs'.length ≤ st.maxParallelItems) :
    DInv { st with futures := fs', sources := s', cur := cur' } := by
  obtain ⟨h1, h2, h3, h4⟩ := hinv
  refine ⟨?_, ?_, ?_, ?_⟩
  · show inflight fs' ≤ st.maxParallelItems
    exact le_trans hinf2 h1
  · show fs'.length ≤ st.maxParallelItems + 1
    omega
  · intro _
    show fs'.length ≤ st.maxParallelItems
    by_cases hfull : st.futures.length = st.maxParallelItems + 1
    · exact hsm hfull
    · omega
  · intro h5
    have h5' : fs'.length = st.maxParallelItems + 1 := h5
    by_cases hfull : st.futures.length = st.maxParallelItems + 1
    · have := hsm hfull
      omega
    · omega

theorem contOnly {C Y R : DState → Prop} {A : DState} (hA : C A) :
    (∀ st', BodyOut.cont A = .cont st' → C st') ∧
    (∀ it st', BodyOut.cont A = .yieldItem it st' → Y st') ∧
    (∀ e st', BodyOut.cont A = .raised e st' → R st') := by
  refine ⟨?_, ?_, ?_⟩
  · intro st' h'
    cases h'
    exact hA
  · intro it st' h'
    cases h'
  · intro e st' h'
    cases h'

theorem yieldOnly {C Y R : DState → Prop} {it0 : RPI} {A : DState} (hA : Y A) :
    (∀ st', BodyOut.yieldItem it0 A = .cont st' → C st') ∧
    (∀ it st', BodyOut.yieldItem it0 A = .yieldItem it st' → Y st') ∧
    (∀ e st', BodyOut.yieldItem it0 A = .raised e st' → R st') := by
  refine ⟨?_, ?_, ?_⟩
  · intro st' h'
    cases h'
  · intro it st' h'
    cases h'
    exact hA
  · intro e st' h'
    cases h'

theorem raiseOnly {C Y R : DState → Prop} {e0 : PyExn} {A : DState} (hA : R A) :
    (∀ st', BodyOut.raised e0 A = .cont st' → C st') ∧
    (∀ it st', BodyOut.raised e0 A = .yieldItem it st' → Y st') ∧
    (∀ e st', BodyOut.raised e0 A = .raised e st' → R st') := by
  refine ⟨?_, ?_, ?_⟩
  · intro st' h'
    cases h'
  · intro it st' h'
    cases h'
  · intro e st' h'
    cases h'
    exact hA

/-- One pass of the `__next__` loop body preserves the invariant, and the
futures list can only grow on a pass that submits, which requires the
guard. -/
theorem bodyStep_pres (st : DState) (hinv : DInv st) :
    (∀ st', bodyStep st = .cont st' →
      DInv st' ∧ (st'.futures.length ≤ st.futures.length ∨ guardProp st)) ∧
    (∀ it st', bodyStep st = .yieldItem it st' →
      DInv (clearCur st') ∧ st'.futures.length ≤ st.futures.length) ∧
    (∀ e st', bodyStep st = .raised e st' →
      DInv (clearCur st') ∧ st'.futures.length ≤ st.futures.length) := by
  obtain ⟨h1, h2, h3, h4⟩ := hinv
  cases hc : st.cur with
  | none =>
    unfold bodyStep
    simp only [hc]
    by_cases hpos : st.futures.length > 0
    · rw [if_pos hpos]
      cases hre : resolveFutures st.futures with
      | mk r1 fs' =>
        have hlen2 : fs'.length ≤ st.futures.length := by
          have := resolveFutures_len st.futures
          rw [hre] at this
          exact this
        have hinf2 : inflight fs' ≤ inflight st.futures := by
          have := resolveFutures_inflight st.futures
          rw [hre] at this
          exact this
        have hsm : st.futures.length = st.maxParallelItems + 1 →
            fs'.length ≤ st.maxParallelItems := by
          intro hfull
          have := resolveFutures_shrink st.futures (h4 hfull)
          rw [hre] at this
          have hlt2 : fs'.length < st.futures.length := this
          omega
        simp only [hre]
        cases r1 with
        | error e =>
          exact raiseOnly ⟨DInv_after_drain st ⟨h1, h2, h3, h4⟩ fs'
            st.sources none hlen2 hinf2 hsm, hlen2⟩
        | ok p1 =>
          cases p1 with
          | some pi2 =>
            exact contOnly ⟨DInv_after_drain st ⟨h1, h2, h3, h4⟩ fs'
              st.sources (some pi2) hlen2 hinf2 hsm, Or.inl hlen2⟩
          | none =>
            cases hgs : getSourceItem st.sources with
            | mk op srcs' =>
              simp only [hgs]
              cases op with
              | some pi2 =>
                exact contOnly ⟨DInv_after_drain st ⟨h1, h2, h3, h4⟩ fs'
                  srcs' (some pi2) hlen2 hinf2 hsm, Or.inl hlen2⟩
              | none =>
                by_cases hterm : fs'.length = 0 ∧ srcs'.length = 0
                · rw [if_pos hterm]
                  exact raiseOnly ⟨DInv_after_drain st ⟨h1, h2, h3, h4⟩ fs'
                    srcs' none hlen2 hinf2 hsm, hlen2⟩
                · rw [if_neg hterm]
                  exact contOnly ⟨DInv_after_drain st ⟨h1, h2, h3, h4⟩ fs'
                    srcs' none hlen2 hinf2 hsm, Or.inl hlen2⟩
    · rw [if_neg hpos]
      have hsm : st.futures.length = st.maxParallelItems + 1 →
          st.futures.length ≤ st.maxParallelItems := by omega
      cases hgs : getSourceItem st.sources with
      | mk op srcs' =>
        simp only [hgs]
        cases op with
        | some pi2 =>
          exact contOnly ⟨DInv_after_drain st ⟨h1, h2, h3, h4⟩ st.futures
            srcs' (some pi2) (Nat.le_refl _) (Nat.le_refl _) hsm,
            Or.inl (Nat.le_refl _)⟩
        | none =>
          by_cases hterm : st.futures.length = 0 ∧ srcs'.length = 0
          · rw [if_pos hterm]
            exact raiseOnly ⟨DInv_after_drain st ⟨h1, h2, h3, h4⟩ st.futures
              srcs' none (Nat.le_refl _) (Nat.le_refl _) hsm, Nat.le_refl _⟩
          · rw [if_neg hterm]
            exact contOnly ⟨DInv_after_drain st ⟨h1, h2, h3, h4⟩ st.futures
              srcs' none (Nat.le_refl _) (Nat.le_refl _) hsm,
              Or.inl (Nat.le_refl _)⟩
  | some pi =>
    have hcur' : st.cur ≠ none := by rw [hc]; exact fun hx => Option.noConfusion hx
    have hle3 : st.futures.length ≤ st.maxParallelItems := h3 hcur'
    have hkeepC : DInv st ∧
        (st.futures.length ≤ st.futures.length ∨ guardProp st) :=
      ⟨⟨h1, h2, h3, h4⟩, Or.inl (Nat.le_refl _)⟩
    have hkeepR : DInv (clearCur st) ∧ st.futures.length ≤ st.futures.length :=
      ⟨⟨h1, h2, fun hx => absurd rfl hx, h4⟩, Nat.le_refl _⟩
    unfold bodyStep
    simp only [hc]
    by_cases hit : isIterV pi.item = true
    · rw [if_pos hit]
      exact contOnly ⟨⟨h1, h2, fun hx => absurd rfl hx, h4⟩,
        Or.inl (Nat.le_refl _)⟩
    · rw [if_neg hit]
      by_cases haw : (isAwaitV pi.item || isCallV pi.item) = true
      · rw [if_pos haw]
        by_cases hg : st.futures.length < st.maxParallelItems ∨
            (nextFutureIdx st.futures).isSome = true
        · rw [if_pos hg]
          have hgp : guardProp st := by
            cases hg with
            | inl hl => exact Or.inl hl
            | inr hr => exact Or.inr (done_of_nextFutureIdx_isSome _ hr)
          have hone : inflight (st.futures ++
              [⟨submitFuture pi.item, pi.step, pi.pipe, pi.meta⟩])
              = inflight st.futures + 1 := by
            simp [inflight, List.countP_append, List.countP_singleton,
              submitFuture_not_done]
          have hinfnew : inflight st.futures + 1 ≤ st.maxParallelItems := by
            cases hg with
            | inl hl =>
              have := inflight_le_length st.futures
              omega
            | inr hr =>
              have := inflight_lt_of_done st.futures
                (done_of_nextFutureIdx_isSome _ hr)
              omega
          have hDI : DInv { st with
              futures := st.futures ++
                [⟨submitFuture pi.item, pi.step, pi.pipe, pi.meta⟩]
              cur := none } := by
            refine ⟨?_, ?_, ?_, ?_⟩
            · show inflight (st.futures ++
                [⟨submitFuture pi.item, pi.step, pi.pipe, pi.meta⟩])
                ≤ st.maxParallelItems
              omega
            · show (st.futures ++
                [(⟨submitFuture pi.item, pi.step, pi.pipe, pi.meta⟩ : FutItem)]).length
                ≤ st.maxParallelItems + 1
              simp only [List.length_append, List.length_singleton]
              omega
            · intro hx
              exact absurd rfl hx
            · intro h5
              have h5' : st.futures.length + 1 = st.maxParallelItems + 1 := by
                simpa [List.length_append] using h5
              have hnd : ∃ f ∈ st.futures, f.fut.done = true := by
                cases hg with
                | inl hl => omega
                | inr hr => exact done_of_nextFutureIdx_isSome _ hr
              rcases hnd with ⟨f, hf, hd⟩
              exact ⟨f, List.mem_append_left _ hf, hd⟩
          exact contOnly ⟨hDI, Or.inr hgp⟩
        · rw [if_neg hg]
          exact contOnly hkeepC
      · rw [if_neg haw]
        by_cases hlast : pi.step =
            ((st.pipes.getD pi.pipe ⟨"", []⟩).steps.length : Int) - 1
        · rw [if_pos hlast]
          rw [if_neg (by
            simp only [Bool.or_eq_true, not_or]
            simp only [Bool.or_eq_true, not_or] at haw
            exact ⟨⟨hit, haw.1⟩, haw.2⟩)]
          exact yieldOnly hkeepR
        · rw [if_neg hlast]
          cases hstep : pyListGet (st.pipes.getD pi.pipe ⟨"", []⟩).steps
              (pi.step + 1) with
          | none =>
            exact raiseOnly hkeepR
          | some sv =>
            cases sv with
            | iterStep =>
              exact raiseOnly hkeepR
            | callStep f =>
              dsimp only
              cases hcall : callTransform f pi.item pi.meta with
              | error e =>
                cases e <;>
                  exact raiseOnly (R := fun s =>
                    DInv (clearCur s) ∧ s.futures.length ≤ st.futures.length)
                    hkeepR
              | ok r =>
                dsimp only
                by_cases hnn : (!isNoneV (dimData r)) = true
                · rw [if_pos hnn]
                  exact contOnly ⟨⟨h1, h2, fun _ => hle3, h4⟩,
                    Or.inl (Nat.le_refl _)⟩
                · rw [if_neg hnn]
                  exact contOnly ⟨⟨h1, h2, fun hx => absurd rfl hx, h4⟩,
                    Or.inl (Nat.le_refl _)⟩


theorem DTrans_inv (st st' : DState) (hinv : DInv st) (htr : DTrans st st') :
    DInv st' := by
  obtain ⟨h1, h2, h3, h4⟩ := hinv
  cases htr with
  | completeFut i h =>
    refine ⟨?_, ?_, ?_, ?_⟩
    · show inflight (st.futures.set i (markFutDone st.futures[i]))
        ≤ st.maxParallelItems
      exact le_trans
        (countP_set_false _ st.futures i _ (by simp [markFutDone])) h1
    · show (st.futures.set i (markFutDone st.futures[i])).length
        ≤ st.maxParallelItems + 1
      rw [List.length_set]
      exact h2
    · intro hx
      show (st.futures.set i (markFutDone st.futures[i])).length
        ≤ st.maxParallelItems
      rw [List.length_set]
      exact h3 hx
    · intro _
      exact ⟨markFutDone st.futures[i], List.mem_set _ _ h _,
        by simp [markFutDone]⟩
  | cancelFut i h =>
    refine ⟨?_, ?_, ?_, ?_⟩
    · show inflight (st.futures.set i (markFutCancelled st.futures[i]))
        ≤ st.maxParallelItems
      exact le_trans
        (countP_set_false _ st.futures i _ (by simp [markFutCancelled])) h1
    · show (st.futures.set i (markFutCancelled st.futures[i])).length
        ≤ st.maxParallelItems + 1
      rw [List.length_set]
      exact h2
    · intro hx
      show (st.futures.set i (markFutCancelled st.futures[i])).length
        ≤ st.maxParallelItems
      rw [List.length_set]
      exact h3 hx
    · intro _
      exact ⟨markFutCancelled st.futures[i], List.mem_set _ _ h _,
        by simp [markFutCancelled]⟩
  | loopCont =>
    rename_i hb
    exact ((bodyStep_pres st ⟨h1, h2, h3, h4⟩).1 st' hb).1
  | loopYield s' it hb =>
    exact ((bodyStep_pres st ⟨h1, h2, h3, h4⟩).2.1 it s' hb).1
  | loopRaise s' e hb =>
    exact ((bodyStep_pres st ⟨h1, h2, h3, h4⟩).2.2 e s' hb).1
  | closeCall =>
    refine ⟨?_, ?_, ?_, ?_⟩
    · show inflight ([] : List FutItem) ≤ st.maxParallelItems
      exact Nat.zero_le _
    · show ([] : List FutItem).length ≤ st.maxParallelItems + 1
      exact Nat.zero_le _
    · intro _
      exact Nat.zero_le _
    · intro h5
      have h5' : (0 : Nat) = st.maxParallelItems + 1 := h5
      exact ((by omega : False)).elim

theorem DInv_reachable (init st : DState) (h0 : DInv init)
    (hr : Relation.ReflTransGen DTrans init st) : DInv st := by
  induction hr with
  | refl => exact h0
  | tail hab hbc ih => exact DTrans_inv _ _ ih hbc

/-- C1: from any start of an iteration (empty futures list, no current item),
at every observable moment — every state reachable through loop passes,
background future completions or cancellations, and `close` calls — the
number of in-flight futures (entries of the futures list whose future is not
yet done) is at most `max_parallel_items`, and any transition that enlarges
the futures list (a submission of a callable or awaitable) can only happen
when the futures list has fewer than `max_parallel_items` entries or at least
one entry is already done. -/
theorem futures_bounded (init st : DState)
    (hfut : init.futures = []) (_hcur : init.cur = none)
    (hr : Relation.ReflTransGen DTrans init st) :
    inflight st.futures ≤ st.maxParallelItems ∧
    (∀ st', DTrans st st' → st.futures.length < st'.futures.length →
      st.futures.length < st.maxParallelItems ∨
        ∃ f ∈ st.futures, f.fut.done = true) := by
  have h0 : DInv init := by
    refine ⟨?_, ?_, ?_, ?_⟩
    · rw [hfut]
      exact Nat.zero_le _
    · rw [hfut]
      exact Nat.zero_le _
    · intro _
      rw [hfut]
      exact Nat.zero_le _
    · intro h5
      rw [hfut, List.length_nil] at h5
      exact ((by omega : False)).elim
  have hinv := DInv_reachable init st h0 hr
  refine ⟨hinv.1, ?_⟩
  intro st' htr hgrow
  cases htr with
  | completeFut i h =>
    rw [List.length_set] at hgrow
    omega
  | cancelFut i h =>
    rw [List.length_set] at hgrow
    omega
  | loopCont =>
    rename_i hb
    rcases ((bodyStep_pres st hinv).1 st' hb).2 with hle | hg
    · omega
    · exact hg
  | loopYield s' it hb =>
    have hle := ((bodyStep_pres st hinv).2.1 it s' hb).2
    have hcl : (clearCur s').futures = s'.futures := rfl
    rw [hcl] at hgrow
    omega
  | loopRaise s' e hb =>
    have hle := ((bodyStep_pres st hinv).2.2 e s' hb).2
    have hcl : (clearCur s').futures = s'.futures := rfl
    rw [hcl] at hgrow
    omega
  | closeCall =>
    have hcl : (closeIter st).futures = [] := rfl
    rw [hcl, List.length_nil] at hgrow
    omega

/-- C1 witness: the theorem applied to a freshly constructed dispatcher with
no steps taken. -/
theorem futures_bounded_witness :
    inflight (⟨[], 0, [], [], none⟩ : DState).futures
      ≤ (⟨[], 0, [], [], none⟩ : DState).maxParallelItems ∧
    (∀ st', DTrans ⟨[], 0, [], [], none⟩ st' →
      (⟨[], 0, [], [], none⟩ : DState).futures.length < st'.futures.length →
      (⟨[], 0, [], [], none⟩ : DState).futures.length
        < (⟨[], 0, [], [], none⟩ : DState).maxParallelItems ∨
      ∃ f ∈ (⟨[], 0, [], [], none⟩ : DState).futures, f.fut.done = true) :=
  futures_bounded ⟨[], 0, [], [], none⟩ ⟨[], 0, [], [], none⟩ rfl rfl
    Relation.ReflTransGen.refl

/-- C8 witness: a drained dispatcher raises `StopIteration`, and the managed
wrapper records a failure-free `__exit__`, closes, and re-raises it. -/
theorem managedNext_spec_witness :
    managedNext 1 ⟨[], 20, [], [], none⟩ true []
      = (.raisedOut .stopIteration (closeIter (clearCur
          ⟨[], 20, [], [], none⟩)), [] ++ [exitArgOf .stopIteration]) ∧
    (PyExn.stopIteration = .stopIteration → exitArgOf .stopIteration = none) ∧
    (PyExn.stopIteration ≠ .stopIteration → exitArgOf .stopIteration
      = some .stopIteration) ∧
    (closeIter (clearCur ⟨[], 20, [], [], none⟩)).futures = [] ∧
    (closeIter (clearCur ⟨[], 20, [], [], none⟩)).sources = [] :=
  managedNext_spec 1 ⟨[], 20, [], [], none⟩
    (clearCur ⟨[], 20, [], [], none⟩) .stopIteration [] rfl

/-- The heap-level model of a `Pipe` for `clone_pipes`, where Python object
identity is an address: the fields of the object, with `parent` an address.
Step values are opaque tokens here, since cloning shallow-copies the step
list without inspecting it. -/
structure PipeObj where
  name : String
  genIdx : Nat
  steps : List Nat
  pipeId : String
  parent : Option Nat
deriving DecidableEq

/-- A heap of pipe objects: the address of an object is its index, and
allocation appends. -/
abbrev Heap := List PipeObj

def heapGet (h : Heap) (a : Nat) : PipeObj :=
  h.getD a ⟨"", 0, [], "", none⟩

/-- `Pipe._clone` with the default `keep_pipe_id=True`: allocate a new object
with the same name, a shallow copy of the steps, the same pipe id and the
same parent pointer; `_gen_idx` restarts at 0 because `Pipe.__init__` sets it
and the steps are assigned directly afterwards. -/
def cloneObj (h : Heap) (a : Nat) : Heap × Nat :=
  let o := heapGet h a
  (h ++ [⟨o.name, 0, o.steps, o.pipeId, o.parent⟩], h.length)

def heapSetParent (h : Heap) (a : Nat) (p : Option Nat) : Heap :=
  h.set a { heapGet h a with parent := p }

/-- Lookup in the `cloned_pairs` dict, keyed by the address of the
original. -/
def pairsLookup (pairs : List (Nat × Nat)) (k : Nat) : Option Nat :=
  (pairs.find? (fun e => e.1 == k)).map (fun e => e.2)

/-- `cloned_pairs.values()`. -/
def pairsValues (pairs : List (Nat × Nat)) : List Nat :=
  pairs.map (fun e => e.2)

/-- The `while True` loop of `PipeIterator.clone_pipes`, walking up one
clone's parent chain.  The first break is `if not clone.parent`: it fires
when the parent pointer is missing, and also when the parent pipe is falsy —
`Pipe` defines `__len__` (the number of steps) and no `__bool__`, so a
parent with zero steps stops the walk and the clone keeps pointing at the
original parent.  Otherwise: stop at a parent that is already a clone; clone
the parent if it has no clone yet, rewrite the parent pointer to the clone,
and continue from that clone.  The fuel models the unbounded loop; on an
acyclic heap the chain length bounds the number of iterations. -/
def cloneWalk : Nat → Heap → List (Nat × Nat) → Nat → Heap × List (Nat × Nat)
  | 0, h, pairs, _ => (h, pairs)
  | fuel + 1, h, pairs, cur =>
    match (heapGet h cur).parent with
    | none => (h, pairs)
    | some par =>
      if (heapGet h par).steps = [] then (h, pairs)
      else if par ∈ pairsValues pairs then (h, pairs)
      else
        let hp :=
          match pairsLookup pairs par with
          | some _ => (h, pairs)
          | none =>
            let r := cloneObj h par
            (r.1, pairs ++ [(par, r.2)])
        let newPar := (pairsLookup hp.2 par).getD 0
        let h2 := heapSetParent hp.1 cur (some newPar)
        cloneWalk fuel h2 hp.2 newPar

/-- The list comprehension `[p._clone() for p in pipes]`. -/
def clonePhase1 (h : Heap) : List Nat → Heap × List Nat
  | [] => (h, [])
  | p :: rest =>
    let r := cloneObj h p
    let r2 := clonePhase1 r.1 rest
    (r2.1, r.2 :: r2.2)

/-- `PipeIterator.clone_pipes`: clone every pipe, build the address map from
originals to clones, then walk every clone's parent chain rewriting parent
pointers to clones (cloning not-yet-cloned parents once). -/
def clonePipes (fuel : Nat) (h : Heap) (pipes : List Nat) : Heap × List Nat :=
  let p1 := clonePhase1 h pipes
  let pairs0 := pipes.zip p1.2
  let r := p1.2.foldl (fun acc c => cloneWalk fuel acc.1 acc.2 c) (p1.1, pairs0)
  (r.1, p1.2)

/-- Proper ancestors of an object through parent pointers. -/
inductive ParentReach (h : Heap) : Nat → Nat → Prop where
  | parent (a b : Nat) : (heapGet h a).parent = some b → ParentReach h a b
  | tail (a b c : Nat) : ParentReach h a b → (heapGet h b).parent = some c →
      ParentReach h a c

/-- The clone `v` of original `k` still carries the original's parent
pointer. -/
def RawP (h0 h : Heap) (k v : Nat) : Prop :=
  (heapGet h v).parent = (heapGet h0 k).parent

/-- The clone `v` of original `k` has its parent pointer rewritten to the
registered clone of the original's parent. -/
def MappedP (h0 h : Heap) (pairs : List (Nat × Nat)) (k v : Nat) : Prop :=
  ∃ kp vp, (heapGet h0 k).parent = some kp ∧ pairsLookup pairs kp = some vp ∧
    (heapGet h v).parent = some vp

/-- The clone `v` of original `k` is finished: either its original is a root
and the clone points nowhere, or its parent pointer has been rewritten. -/
def DoneP (h0 h : Heap) (pairs : List (Nat × Nat)) (k v : Nat) : Prop :=
  ((heapGet h0 k).parent = none ∧ (heapGet h v).parent = none) ∨
    MappedP h0 h pairs k v

/-- The invariant of `clone_pipes` phase 2 over the heap and the
`cloned_pairs` map: the heap only grew, originals are untouched, the map
sends distinct originals to distinct fresh clones, and every registered clone
either still carries its original's parent pointer or is finished. -/
structure GoodState (h0 h : Heap) (pairs : List (Nat × Nat)) : Prop where
  len : h0.length ≤ h.length
  orig : ∀ a, a < h0.length → heapGet h a = heapGet h0 a
  mem : ∀ e ∈ pairs, e.1 < h0.length ∧ h0.length ≤ e.2 ∧ e.2 < h.length
  keysNodup : (pairs.map Prod.fst).Nodup
  valsNodup : (pairs.map Prod.snd).Nodup
  status : ∀ e ∈ pairs, RawP h0 h e.1 e.2 ∨ DoneP h0 h pairs e.1 e.2

theorem pairsLookup_mem (pairs : List (Nat × Nat)) (k v : Nat)
    (h : pairsLookup pairs k = some v) : (k, v) ∈ pairs := by
  rw [pairsLookup] at h
  cases hf : pairs.find? (fun e => e.1 == k) with
  | none => rw [hf] at h; simp at h
  | some e =>
    rw [hf] at h
    simp only [Option.map_some', Option.some.injEq] at h
    have hmem := List.mem_of_find?_eq_some hf
    have hkey := List.find?_some hf
    simp only [beq_iff_eq] at hkey
    have : e = (k, v) := by
      cases e
      simp_all
    rw [← this]
    exact hmem

theorem pairsLookup_eq_some_of_mem (pairs : List (Nat × Nat)) (k v : Nat)
    (hnd : (pairs.map Prod.fst).Nodup) (hmem : (k, v) ∈ pairs) :
    pairsLookup pairs k = some v := by
  induction pairs with
  | nil => simp at hmem
  | cons e rest ih =>
    rw [List.map_cons, List.nodup_cons] at hnd
    rcases List.mem_cons.mp hmem with he | hrest
    · rw [← he, pairsLookup, List.find?_cons_of_pos _ (by simp)]
      rfl
    · have hkne : ¬((fun (e : Nat × Nat) => e.1 == k) e = true) := by
        simp only [beq_iff_eq]
        intro hcontra
        exact hnd.1 (hcontra ▸ List.mem_map_of_mem Prod.fst hrest)
      rw [pairsLookup, List.find?_cons_of_neg (p := fun e => e.1 == k) rest hkne]
      exact ih hnd.2 hrest

theorem pairsLookup_none_of_not_key (pairs : List (Nat × Nat)) (k : Nat)
    (h : k ∉ pairs.map Prod.fst) : pairsLookup pairs k = none := by
  rw [pairsLookup, List.find?_eq_none.mpr]
  · rfl
  · intro e he
    simp only [beq_iff_eq]
    intro hcontra
    exact h (hcontra ▸ List.mem_map_of_mem Prod.fst he)

theorem not_key_of_pairsLookup_none (pairs : List (Nat × Nat)) (k : Nat)
    (h : pairsLookup pairs k = none) : k ∉ pairs.map Prod.fst := by
  intro hk
  rcases List.mem_map.mp hk with ⟨e, hmem, hfst⟩
  rw [pairsLookup] at h
  rcases List.find?_eq_none.mp (by
    cases hf : pairs.find? (fun e => e.1 == k) with
    | none => rfl
    | some e2 => rw [hf] at h; simp at h) e hmem with hne
  simp [hfst] at hne

theorem pairsLookup_append_left (pairs t : List (Nat × Nat)) (k v : Nat)
    (h : pairsLookup pairs k = some v) : pairsLookup (pairs ++ t) k = some v := by
  rw [pairsLookup] at h
  cases hf : pairs.find? (fun e => e.1 == k) with
  | none => rw [hf] at h; simp at h
  | some e =>
    rw [hf] at h
    simp only [Option.map_some', Option.some.injEq] at h
    rw [pairsLookup, List.find?_append, hf]
    simp [h]

theorem pairsLookup_append_new (pairs : List (Nat × Nat)) (k w : Nat)
    (h : pairsLookup pairs k = none) :
    pairsLookup (pairs ++ [(k, w)]) k = some w := by
  rw [pairsLookup, List.find?_append]
  have hf : pairs.find? (fun e => e.1 == k) = none := by
    cases hf : pairs.find? (fun e => e.1 == k) with
    | none => rfl
    | some e => rw [pairsLookup, hf] at h; simp at h
  rw [hf]
  simp

theorem mem_pairsValues (pairs : List (Nat × Nat)) (v : Nat) :
    v ∈ pairsValues pairs ↔ ∃ k, (k, v) ∈ pairs := by
  rw [pairsValues, List.mem_map]
  constructor
  · rintro ⟨e, hmem, hsnd⟩
    exact ⟨e.1, by rw [show (e.1, v) = e from by cases e; simp_all]; exact hmem⟩
  · rintro ⟨k, hmem⟩
    exact ⟨(k, v), hmem, rfl⟩

theorem heapGet_append (h : Heap) (o : PipeObj) (a : Nat) (ha : a < h.length) :
    heapGet (h ++ [o]) a = heapGet h a := by
  rw [heapGet, heapGet, List.getD_eq_getElem?_getD, List.getD_eq_getElem?_getD,
    List.getElem?_append_left ha]

theorem heapGet_concat_length (h : Heap) (o : PipeObj) :
    heapGet (h ++ [o]) h.length = o := by
  rw [heapGet, List.getD_eq_getElem?_getD, List.getElem?_concat_length]
  rfl

theorem heapGet_set_ne (h : Heap) (b : Nat) (p : Option Nat) (a : Nat)
    (hab : a ≠ b) : heapGet (heapSetParent h b p) a = heapGet h a := by
  unfold heapSetParent heapGet
  rw [List.getD_eq_getElem?_getD, List.getD_eq_getElem?_getD,
    List.getElem?_set_ne (fun hcontra => hab hcontra.symm),
    List.getD_eq_getElem?_getD]

theorem heapGet_set_self (h : Heap) (b : Nat) (p : Option Nat)
    (hb : b < h.length) :
    heapGet (heapSetParent h b p) b = { heapGet h b with parent := p } := by
  rw [heapSetParent, heapGet, List.getD_eq_getElem?_getD,
    List.getElem?_set_self (by omega)]
  rfl

theorem length_heapSetParent (h : Heap) (b : Nat) (p : Option Nat) :
    (heapSetParent h b p).length = h.length := by
  rw [heapSetParent, List.length_set]

theorem RawP_mono (h0 h h' : Heap) (k v : Nat) (hr : RawP h0 h k v)
    (hagree : heapGet h' v = heapGet h v) : RawP h0 h' k v := by
  rw [RawP, hagree]
  exact hr

theorem MappedP_mono (h0 h h' : Heap) (pairs t : List (Nat × Nat)) (k v : Nat)
    (hm : MappedP h0 h pairs k v) (hagree : heapGet h' v = heapGet h v) :
    MappedP h0 h' (pairs ++ t) k v := by
  obtain ⟨kp, vp, h1, h2, h3⟩ := hm
  exact ⟨kp, vp, h1, pairsLookup_append_left pairs t kp vp h2, by rw [hagree]; exact h3⟩

theorem DoneP_mono (h0 h h' : Heap) (pairs t : List (Nat × Nat)) (k v : Nat)
    (hd : DoneP h0 h pairs k v) (hagree : heapGet h' v = heapGet h v) :
    DoneP h0 h' (pairs ++ t) k v := by
  cases hd with
  | inl hn => exact Or.inl ⟨hn.1, by rw [hagree]; exact hn.2⟩
  | inr hm => exact Or.inr (MappedP_mono h0 h h' pairs t k v hm hagree)

theorem DoneP_agree (h0 h h' : Heap) (pairs : List (Nat × Nat)) (k v : Nat)
    (hd : DoneP h0 h pairs k v) (hagree : heapGet h' v = heapGet h v) :
    DoneP h0 h' pairs k v := by
  have := DoneP_mono h0 h h' pairs [] k v hd hagree
  rwa [List.append_nil] at this

theorem pairs_val_inj (pairs : List (Nat × Nat))
    (hnd : (pairs.map Prod.snd).Nodup) (a b v : Nat)
    (ha : (a, v) ∈ pairs) (hb : (b, v) ∈ pairs) : a = b := by
  induction pairs with
  | nil => simp at ha
  | cons e rest ih =>
    rw [List.map_cons, List.nodup_cons] at hnd
    rcases List.mem_cons.mp ha with hae | har
    · rcases List.mem_cons.mp hb with hbe | hbr
      · rw [← hae] at hbe
        exact (Prod.mk.injEq _ _ _ _ |>.mp hbe.symm).1
      · exfalso
        apply hnd.1
        have hv : v ∈ List.map Prod.snd rest := List.mem_map_of_mem Prod.snd hbr
        rw [← hae]
        exact hv
    · rcases List.mem_cons.mp hb with hbe | hbr
      · exfalso
        apply hnd.1
        have hv : v ∈ List.map Prod.snd rest := List.mem_map_of_mem Prod.snd har
        rw [← hbe]
        exact hv
      · exact ih hnd.2 har hbr

theorem nodup_concat_of {α : Type} (l : List α) (a : α) (hnd : l.Nodup)
    (hna : a ∉ l) : (l ++ [a]).Nodup := by
  rw [List.nodup_append]
  exact ⟨hnd, List.nodup_singleton a, by
    intro x hx hxa
    rw [List.mem_singleton] at hxa
    exact hna (hxa ▸ hx)⟩

theorem getD_lt_length_mem (ps : List Nat) (j : Nat) (hj : j < ps.length) :
    ps.getD j 0 ∈ ps := by
  rw [List.getD_eq_getElem?_getD, List.getElem?_eq_getElem hj]
  exact List.getElem_mem hj

theorem clonePhase1_spec (ps : List Nat) : ∀ (h : Heap),
    (∀ p ∈ ps, p < h.length) →
    (clonePhase1 h ps).1.length = h.length + ps.length ∧
    (clonePhase1 h ps).2 = List.range' h.length ps.length ∧
    (∀ a, a < h.length → heapGet (clonePhase1 h ps).1 a = heapGet h a) ∧
    (∀ j, j < ps.length →
      heapGet (clonePhase1 h ps).1 (h.length + j)
        = { heapGet h (ps.getD j 0) with genIdx := 0 }) := by
  induction ps with
  | nil =>
    intro h hps
    refine ⟨by simp [clonePhase1], by simp [clonePhase1], ?_, ?_⟩
    · intro a ha
      rfl
    · intro j hj
      simp at hj
  | cons p rest ih =>
    intro h hps
    have hp : p < h.length := hps p (List.mem_cons_self p rest)
    have hlen1 : ((cloneObj h p).1).length = h.length + 1 := by
      rw [cloneObj]
      simp
    have hrest : ∀ q ∈ rest, q < ((cloneObj h p).1).length := by
      intro q hq
      rw [hlen1]
      exact Nat.lt_succ_of_lt (hps q (List.mem_cons_of_mem p hq))
    obtain ⟨i1, i2, i3, i4⟩ := ih (cloneObj h p).1 hrest
    refine ⟨?_, ?_, ?_, ?_⟩
    · show (clonePhase1 (cloneObj h p).1 rest).1.length = _
      rw [i1, hlen1]
      simp only [List.length_cons]
      omega
    · show (cloneObj h p).2 :: (clonePhase1 (cloneObj h p).1 rest).2 = _
      rw [i2, hlen1]
      simp only [List.length_cons]
      rw [List.range'_succ]
      rfl
    · intro a ha
      show heapGet (clonePhase1 (cloneObj h p).1 rest).1 a = _
      rw [i3 a (by omega), cloneObj]
      exact heapGet_append h _ a ha
    · intro j hj
      cases j with
      | zero =>
        show heapGet (clonePhase1 (cloneObj h p).1 rest).1 (h.length + 0) = _
        rw [Nat.add_zero, i3 h.length (by omega), cloneObj]
        show heapGet (h ++ [_]) h.length = _
        rw [heapGet_concat_length]
        rfl
      | succ j =>
        show heapGet (clonePhase1 (cloneObj h p).1 rest).1 (h.length + (j + 1)) = _
        have harith : h.length + (j + 1) = (cloneObj h p).1.length + j := by
          rw [hlen1]
          omega
        rw [harith, i4 j (by simpa using hj)]
        have hq : rest.getD j 0 < h.length :=
          hps _ (List.mem_cons_of_mem p (getD_lt_length_mem rest j (by simpa using hj)))
        rw [show (cloneObj h p).1 = h ++ [_] from rfl, heapGet_append h _ _ hq]
        rfl

/-- Well-formed original heap for the parent walk: parents stay in the heap,
strictly decrease a rank measure (acyclicity), and every pipe used as a
parent has at least one step — i.e. is truthy under `Pipe.__len__`, so the
`if not clone.parent` break never leaves a clone pointing at an original. -/
def HeapWf (h0 : Heap) (rank : Nat → Nat) : Prop :=
  ∀ a, a < h0.length → ∀ b, (heapGet h0 a).parent = some b →
    b < h0.length ∧ rank b < rank a ∧ (heapGet h0 b).steps ≠ []

theorem cloneWalk_spec (h0 : Heap) (rank : Nat → Nat) (hwf : HeapWf h0 rank) :
    ∀ (fuel : Nat) (h : Heap) (pairs : List (Nat × Nat)) (cur k : Nat),
      GoodState h0 h pairs → (k, cur) ∈ pairs → rank k < fuel →
      GoodState h0 (cloneWalk fuel h pairs cur).1 (cloneWalk fuel h pairs cur).2 ∧
      (∃ t, (cloneWalk fuel h pairs cur).2 = pairs ++ t) ∧
      h.length ≤ (cloneWalk fuel h pairs cur).1.length ∧
      DoneP h0 (cloneWalk fuel h pairs cur).1 (cloneWalk fuel h pairs cur).2 k cur ∧
      (∀ e ∈ pairs, DoneP h0 h pairs e.1 e.2 →
        DoneP h0 (cloneWalk fuel h pairs cur).1 (cloneWalk fuel h pairs cur).2 e.1 e.2) ∧
      (∀ e, e ∈ (cloneWalk fuel h pairs cur).2 → e ∉ pairs →
        DoneP h0 (cloneWalk fuel h pairs cur).1 (cloneWalk fuel h pairs cur).2 e.1 e.2) := by
  intro fuel
  induction fuel with
  | zero =>
    intro h pairs cur k hGI hmem hfl
    omega
  | succ n ih =>
    intro h pairs cur k hGI hmem hfl
    obtain ⟨hkN, hcurN, hcurlen⟩ := hGI.mem (k, cur) hmem
    cases hpar : (heapGet h cur).parent with
    | none =>
      have hres : cloneWalk (n + 1) h pairs cur = (h, pairs) := by
        simp only [cloneWalk, hpar]
      rw [hres]
      refine ⟨hGI, ⟨[], (List.append_nil pairs).symm⟩, Nat.le_refl _, ?_,
        fun e he hd => hd, fun e he hne => absurd he hne⟩
      rcases hGI.status (k, cur) hmem with hraw | hdone
      · exact Or.inl ⟨by rw [← hraw]; exact hpar, hpar⟩
      · exact hdone
    | some par =>
      by_cases hemp : (heapGet h par).steps = []
      · have hres : cloneWalk (n + 1) h pairs cur = (h, pairs) := by
          simp only [cloneWalk, hpar, if_pos hemp]
        rw [hres]
        refine ⟨hGI, ⟨[], (List.append_nil pairs).symm⟩, Nat.le_refl _, ?_,
          fun e he hd => hd, fun e he hne => absurd he hne⟩
        rcases hGI.status (k, cur) hmem with hraw | hdone
        · exfalso
          have horig : (heapGet h0 k).parent = some par := by
            rw [← hraw]; exact hpar
          obtain ⟨hparN, hrank2, hne⟩ := hwf k hkN par horig
          apply hne
          rw [← hGI.orig par hparN]
          exact hemp
        · exact hdone
      by_cases hval : par ∈ pairsValues pairs
      · have hres : cloneWalk (n + 1) h pairs cur = (h, pairs) := by
          simp only [cloneWalk, hpar, if_neg hemp, if_pos hval]
        rw [hres]
        have hdone : DoneP h0 h pairs k cur := by
          rcases hGI.status (k, cur) hmem with hraw | hdone
          · exfalso
            rcases (mem_pairsValues pairs par).mp hval with ⟨kp, hkp⟩
            have hparN := (hGI.mem (kp, par) hkp).2.1
            have horig : (heapGet h0 k).parent = some par := by
              rw [← hraw]; exact hpar
            have := (hwf k hkN par horig).1
            omega
          · exact hdone
        exact ⟨hGI, ⟨[], (List.append_nil pairs).symm⟩, Nat.le_refl _, hdone,
          fun e he hd => hd, fun e he hne => absurd he hne⟩
      · have hraw : RawP h0 h k cur := by
          rcases hGI.status (k, cur) hmem with hraw | hdone
          · exact hraw
          · exfalso
            cases hdone with
            | inl hn => rw [hpar] at hn; exact Option.noConfusion hn.2
            | inr hm =>
              obtain ⟨kp, vp, _, hlk, hpp⟩ := hm
              rw [hpar] at hpp
              obtain rfl : par = vp := Option.some.inj hpp
              exact hval ((mem_pairsValues pairs par).mpr
                ⟨kp, pairsLookup_mem pairs kp par hlk⟩)
        have horig : (heapGet h0 k).parent = some par := by
          rw [← hraw]; exact hpar
        obtain ⟨hparN, hrank, -⟩ := hwf k hkN par horig
        have hrankn : rank par < n := by omega
        cases hlook : pairsLookup pairs par with
        | some v0 =>
          have hv0mem : (par, v0) ∈ pairs := pairsLookup_mem pairs par v0 hlook
          obtain ⟨hparN', hv0N, hv0len⟩ := hGI.mem (par, v0) hv0mem
          have hres : cloneWalk (n + 1) h pairs cur
              = cloneWalk n (heapSetParent h cur (some v0)) pairs v0 := by
            simp only [cloneWalk, hpar, if_neg hemp, if_neg hval, hlook,
              Option.getD_some]
          have hlen2 : (heapSetParent h cur (some v0)).length = h.length :=
            length_heapSetParent h cur _
          have hagree : ∀ a, a ≠ cur →
              heapGet (heapSetParent h cur (some v0)) a = heapGet h a :=
            fun a ha => heapGet_set_ne h cur _ a ha
          have hcurget : heapGet (heapSetParent h cur (some v0)) cur
              = { heapGet h cur with parent := some v0 } :=
            heapGet_set_self h cur _ hcurlen
          have hmapped : DoneP h0 (heapSetParent h cur (some v0)) pairs k cur :=
            Or.inr ⟨par, v0, horig, hlook, by rw [hcurget]⟩
          have hGI2 : GoodState h0 (heapSetParent h cur (some v0)) pairs := by
            refine ⟨by rw [hlen2]; exact hGI.len, ?_, ?_,
              hGI.keysNodup, hGI.valsNodup, ?_⟩
            · intro a ha
              rw [hagree a (by omega)]
              exact hGI.orig a ha
            · intro e he
              obtain ⟨e1, e2, e3⟩ := hGI.mem e he
              exact ⟨e1, e2, by rw [hlen2]; exact e3⟩
            · intro e he
              obtain ⟨e1, e2⟩ := e
              by_cases hecur : e2 = cur
              · subst hecur
                have he1k : e1 = k :=
                  pairs_val_inj pairs hGI.valsNodup e1 k e2 he hmem
                subst he1k
                exact Or.inr hmapped
              · rcases hGI.status (e1, e2) he with hr | hd
                · exact Or.inl (RawP_mono h0 h _ e1 e2 hr (hagree e2 hecur))
                · exact Or.inr
                    (match DoneP_agree h0 h _ pairs e1 e2 hd (hagree e2 hecur) with
                      | d => d)
          obtain ⟨g1, g2, g3, g4, g5, g6⟩ := ih (heapSetParent h cur (some v0))
            pairs v0 par hGI2 hv0mem hrankn
          rw [hres]
          refine ⟨g1, g2, by omega, ?_, ?_, g6⟩
          · exact g5 (k, cur) hmem hmapped
          · intro e he hd
            refine g5 e he ?_
            obtain ⟨e1, e2⟩ := e
            by_cases hecur : e2 = cur
            · subst hecur
              exfalso
              cases hd with
              | inl hn => rw [hpar] at hn; exact Option.noConfusion hn.2
              | inr hm =>
                obtain ⟨kp, vp, _, hlk, hpp⟩ := hm
                rw [hpar] at hpp
                obtain rfl : par = vp := Option.some.inj hpp
                exact hval ((mem_pairsValues pairs par).mpr
                  ⟨kp, pairsLookup_mem pairs kp par hlk⟩)
            · exact DoneP_agree h0 h _ pairs e1 e2 hd (hagree e2 hecur)
        | none =>
          have hres : cloneWalk (n + 1) h pairs cur
              = cloneWalk n
                  (heapSetParent (cloneObj h par).1 cur (some (cloneObj h par).2))
                  (pairs ++ [(par, (cloneObj h par).2)]) (cloneObj h par).2 := by
            simp only [cloneWalk, hpar, if_neg hemp, if_neg hval, hlook,
              pairsLookup_append_new pairs par (cloneObj h par).2 hlook,
              Option.getD_some]
          have hv0 : (cloneObj h par).2 = h.length := rfl
          have hobj : heapGet (cloneObj h par).1 h.length
              = { heapGet h par with genIdx := 0 } := heapGet_concat_length h _
          have hparorig : heapGet h par = heapGet h0 par := hGI.orig par hparN
          have hlen1 : (cloneObj h par).1.length = h.length + 1 := by
            show (h ++ [_]).length = h.length + 1
            simp
          have hagree1 : ∀ a, a < h.length →
              heapGet (cloneObj h par).1 a = heapGet h a :=
            fun a ha => heapGet_append h _ a ha
          have hpairs1 : (pairs ++ [(par, (cloneObj h par).2)]).map Prod.fst
              = pairs.map Prod.fst ++ [par] := by
            simp
          have hvals1 : (pairs ++ [(par, (cloneObj h par).2)]).map Prod.snd
              = pairs.map Prod.snd ++ [h.length] := by
            simp [hv0]
          have hnewmem : (par, (cloneObj h par).2)
              ∈ pairs ++ [(par, (cloneObj h par).2)] :=
            List.mem_append_right _ (List.mem_singleton.mpr rfl)
          have hlen2 : (heapSetParent (cloneObj h par).1 cur
              (some (cloneObj h par).2)).length = h.length + 1 := by
            rw [length_heapSetParent, hlen1]
          have hagree2 : ∀ a, a ≠ cur →
              heapGet (heapSetParent (cloneObj h par).1 cur
                (some (cloneObj h par).2)) a = heapGet (cloneObj h par).1 a :=
            fun a ha => heapGet_set_ne _ cur _ a ha
          have hcurget : heapGet (heapSetParent (cloneObj h par).1 cur
              (some (cloneObj h par).2)) cur
              = { heapGet (cloneObj h par).1 cur with
                  parent := some (cloneObj h par).2 } :=
            heapGet_set_self _ cur _ (by omega)
          have hlookup1 : pairsLookup (pairs ++ [(par, (cloneObj h par).2)]) par
              = some (cloneObj h par).2 :=
            pairsLookup_append_new pairs par _ hlook
          have hmapped : DoneP h0
              (heapSetParent (cloneObj h par).1 cur (some (cloneObj h par).2))
              (pairs ++ [(par, (cloneObj h par).2)]) k cur :=
            Or.inr ⟨par, (cloneObj h par).2, horig, hlookup1, by rw [hcurget]⟩
          have hcurne : (cloneObj h par).2 ≠ cur := by
            rw [hv0]
            omega
          have hnewraw : RawP h0
              (heapSetParent (cloneObj h par).1 cur (some (cloneObj h par).2))
              par (cloneObj h par).2 := by
            rw [RawP, hagree2 _ hcurne, hv0, hobj, hparorig]
          have hGI2 : GoodState h0
              (heapSetParent (cloneObj h par).1 cur (some (cloneObj h par).2))
              (pairs ++ [(par, (cloneObj h par).2)]) := by
            refine ⟨by rw [hlen2]; exact le_trans hGI.len (by omega), ?_, ?_, ?_, ?_, ?_⟩
            · intro a ha
              have haN : a < h.length := lt_of_lt_of_le ha hGI.len
              rw [hagree2 a (by omega), hagree1 a haN]
              exact hGI.orig a ha
            · intro e he
              rcases List.mem_append.mp he with hold | hnew
              · obtain ⟨e1, e2, e3⟩ := hGI.mem e hold
                exact ⟨e1, e2, by rw [hlen2]; omega⟩
              · rw [List.mem_singleton.mp hnew]
                refine ⟨hparN, ?_, ?_⟩
                · rw [hv0]
                  exact hGI.len
                · rw [hlen2, hv0]
                  omega
            · rw [hpairs1]
              exact nodup_concat_of _ par hGI.keysNodup
                (not_key_of_pairsLookup_none pairs par hlook)
            · rw [hvals1]
              refine nodup_concat_of _ h.length hGI.valsNodup ?_
              intro hcontra
              rcases (mem_pairsValues pairs h.length).mp hcontra with ⟨kx, hkx⟩
              have := (hGI.mem (kx, h.length) hkx).2.2
              omega
            · intro e he
              rcases List.mem_append.mp he with hold | hnew
              · obtain ⟨e1, e2⟩ := e
                by_cases hecur : e2 = cur
                · subst hecur
                  have he1k : e1 = k :=
                    pairs_val_inj pairs hGI.valsNodup e1 k e2 hold hmem
                  subst he1k
                  exact Or.inr hmapped
                · have hagreee : heapGet (heapSetParent (cloneObj h par).1 cur
                      (some (cloneObj h par).2)) e2 = heapGet h e2 := by
                    rw [hagree2 e2 hecur,
                      hagree1 e2 (hGI.mem (e1, e2) hold).2.2]
                  rcases hGI.status (e1, e2) hold with hr | hd
                  · exact Or.inl (RawP_mono h0 h _ e1 e2 hr hagreee)
                  · exact Or.inr (DoneP_mono h0 h _ pairs
                      [(par, (cloneObj h par).2)] e1 e2 hd hagreee)
              · rw [List.mem_singleton.mp hnew]
                exact Or.inl hnewraw
          obtain ⟨g1, g2, g3, g4, g5, g6⟩ := ih
            (heapSetParent (cloneObj h par).1 cur (some (cloneObj h par).2))
            (pairs ++ [(par, (cloneObj h par).2)]) (cloneObj h par).2 par
            hGI2 hnewmem hrankn
          rw [hres]
          obtain ⟨t2, ht2⟩ := g2
          refine ⟨g1, ⟨[(par, (cloneObj h par).2)] ++ t2, by
            rw [ht2, List.append_assoc]⟩, by omega, ?_, ?_, ?_⟩
          · exact g5 (k, cur)
              (List.mem_append_left _ hmem) hmapped
          · intro e he hd
            refine g5 e (List.mem_append_left _ he) ?_
            obtain ⟨e1, e2⟩ := e
            by_cases hecur : e2 = cur
            · subst hecur
              exfalso
              cases hd with
              | inl hn => rw [hpar] at hn; exact Option.noConfusion hn.2
              | inr hm =>
                obtain ⟨kp, vp, _, hlk, hpp⟩ := hm
                rw [hpar] at hpp
                obtain rfl : par = vp := Option.some.inj hpp
                exact hval ((mem_pairsValues pairs par).mpr
                  ⟨kp, pairsLookup_mem pairs kp par hlk⟩)
            · have hagreee : heapGet (heapSetParent (cloneObj h par).1 cur
                  (some (cloneObj h par).2)) e2 = heapGet h e2 := by
                rw [hagree2 e2 hecur, hagree1 e2 (hGI.mem (e1, e2) he).2.2]
              exact DoneP_mono h0 h _ pairs [(par, (cloneObj h par).2)]
                e1 e2 hd hagreee
          · intro e he hne
            by_cases hmem1 : e ∈ pairs ++ [(par, (cloneObj h par).2)]
            · rcases List.mem_append.mp hmem1 with hem | hen
              · exact absurd hem hne
              · obtain ⟨e1, e2⟩ := e
                obtain ⟨hp1, hp2⟩ := Prod.mk.injEq e1 e2 par (cloneObj h par).2
                  |>.mp (List.mem_singleton.mp hen)
                subst hp1
                subst hp2
                exact g4
            · exact g6 e he hmem1

/-- Folding the parent-chain walk over a list of registered clones preserves
the invariant, only grows the pairs map, finishes every pair registered
during the fold, and finishes every starting pair that is already finished
or whose clone is in the processed list. -/
theorem cloneFold_spec (h0 : Heap) (rank : Nat → Nat) (hwf : HeapWf h0 rank)
    (fuel : Nat) (hfl : ∀ a, a < h0.length → rank a < fuel) :
    ∀ (cs : List Nat) (h : Heap) (pairs : List (Nat × Nat)),
      GoodState h0 h pairs →
      (∀ c ∈ cs, ∃ k, (k, c) ∈ pairs) →
      GoodState h0
        (cs.foldl (fun acc c => cloneWalk fuel acc.1 acc.2 c) (h, pairs)).1
        (cs.foldl (fun acc c => cloneWalk fuel acc.1 acc.2 c) (h, pairs)).2 ∧
      (∃ t, (cs.foldl (fun acc c => cloneWalk fuel acc.1 acc.2 c) (h, pairs)).2
        = pairs ++ t) ∧
      (∀ e, e ∈ (cs.foldl (fun acc c => cloneWalk fuel acc.1 acc.2 c)
          (h, pairs)).2 → e ∉ pairs →
        DoneP h0 (cs.foldl (fun acc c => cloneWalk fuel acc.1 acc.2 c)
            (h, pairs)).1
          (cs.foldl (fun acc c => cloneWalk fuel acc.1 acc.2 c) (h, pairs)).2
          e.1 e.2) ∧
      (∀ e ∈ pairs, DoneP h0 h pairs e.1 e.2 ∨ e.2 ∈ cs →
        DoneP h0 (cs.foldl (fun acc c => cloneWalk fuel acc.1 acc.2 c)
            (h, pairs)).1
          (cs.foldl (fun acc c => cloneWalk fuel acc.1 acc.2 c) (h, pairs)).2
          e.1 e.2) := by
  intro cs
  induction cs with
  | nil =>
    intro h pairs hGI hcs
    refine ⟨hGI, ⟨[], (List.append_nil pairs).symm⟩, ?_, ?_⟩
    · intro e he hne
      exact absurd he hne
    · intro e he hd
      rcases hd with hd | hmem
      · exact hd
      · simp at hmem
  | cons c cs' ih =>
    intro h pairs hGI hcs
    obtain ⟨k0, hk0⟩ := hcs c (List.mem_cons_self c cs')
    have hk0N : k0 < h0.length := (hGI.mem (k0, c) hk0).1
    obtain ⟨w1, ⟨t1, ht1⟩, w3, w4, w5, w6⟩ :=
      cloneWalk_spec h0 rank hwf fuel h pairs c k0 hGI hk0 (hfl k0 hk0N)
    have hcs' : ∀ c2 ∈ cs', ∃ k, (k, c2) ∈ (cloneWalk fuel h pairs c).2 := by
      intro c2 hc2
      obtain ⟨k2, hk2⟩ := hcs c2 (List.mem_cons_of_mem c hc2)
      exact ⟨k2, by rw [ht1]; exact List.mem_append_left _ hk2⟩
    obtain ⟨g1, g2, g3, g4⟩ := ih (cloneWalk fuel h pairs c).1
      (cloneWalk fuel h pairs c).2 w1 hcs'
    obtain ⟨t2, ht2⟩ := g2
    simp only [List.foldl_cons]
    refine ⟨g1, ⟨t1 ++ t2, by rw [ht2, ht1, List.append_assoc]⟩, ?_, ?_⟩
    · intro e he hne
      by_cases hw : e ∈ (cloneWalk fuel h pairs c).2
      · exact g4 e hw (Or.inl (w6 e hw hne))
      · exact g3 e he hw
    · intro e he hd
      obtain ⟨e1, e2⟩ := e
      have hew : (e1, e2) ∈ (cloneWalk fuel h pairs c).2 := by
        rw [ht1]
        exact List.mem_append_left _ he
      rcases hd with hd | hmem
      · exact g4 (e1, e2) hew (Or.inl (w5 (e1, e2) he hd))
      · rcases List.mem_cons.mp hmem with hec | hecs
        · have hec2 : e2 = c := hec
          subst hec2
          have he1k : e1 = k0 :=
            pairs_val_inj pairs hGI.valsNodup e1 k0 e2 he hk0
          subst he1k
          exact g4 (e1, e2) hew (Or.inl w4)
        · exact g4 (e1, e2) hew (Or.inr hecs)

theorem mem_zip_index : ∀ (l1 l2 : List Nat) (e : Nat × Nat), e ∈ l1.zip l2 →
    ∃ j, j < l1.length ∧ j < l2.length ∧ l1.getD j 0 = e.1 ∧ l2.getD j 0 = e.2 := by
  intro l1
  induction l1 with
  | nil =>
    intro l2 e h
    simp at h
  | cons a t1 ih =>
    intro l2 e h
    cases l2 with
    | nil => simp at h
    | cons b t2 =>
      rw [List.zip_cons_cons] at h
      rcases List.mem_cons.mp h with he | ht
      · refine ⟨0, Nat.succ_pos _, Nat.succ_pos _, ?_, ?_⟩
        · rw [he]
          rfl
        · rw [he]
          rfl
      · obtain ⟨j, hj1, hj2, hj3, hj4⟩ := ih t2 e ht
        exact ⟨j + 1, Nat.succ_lt_succ hj1, Nat.succ_lt_succ hj2, hj3, hj4⟩

theorem zip_getD_mem : ∀ (l1 l2 : List Nat) (j : Nat), j < l1.length →
    j < l2.length → (l1.getD j 0, l2.getD j 0) ∈ l1.zip l2 := by
  intro l1
  induction l1 with
  | nil =>
    intro l2 j h1 h2
    simp at h1
  | cons a t1 ih =>
    intro l2 j h1 h2
    cases l2 with
    | nil => simp at h2
    | cons b t2 =>
      rw [List.zip_cons_cons]
      cases j with
      | zero => exact List.mem_cons_self _ _
      | succ j =>
        exact List.mem_cons_of_mem _
          (ih t2 j (by simpa using h1) (by simpa using h2))

theorem snd_mem_zip : ∀ (l2 l1 : List Nat), l1.length = l2.length →
    ∀ c ∈ l2, ∃ k, (k, c) ∈ l1.zip l2 := by
  intro l2
  induction l2 with
  | nil =>
    intro l1 hlen c hc
    simp at hc
  | cons b t2 ih =>
    intro l1 hlen c hc
    cases l1 with
    | nil => simp at hlen
    | cons a t1 =>
      rw [List.zip_cons_cons]
      rcases List.mem_cons.mp hc with hcb | hct
      · exact ⟨a, by rw [hcb]; exact List.mem_cons_self _ _⟩
      · obtain ⟨k, hk⟩ := ih t1 (by simpa using hlen) c hct
        exact ⟨k, List.mem_cons_of_mem _ hk⟩

/-- In a state where every registered pair is finished, the parent chain from
any registered clone only visits registered clones, which live above the
original heap. -/
theorem reach_registered (h0 H : Heap) (pairs : List (Nat × Nat))
    (hGI : GoodState h0 H pairs)
    (hall : ∀ e ∈ pairs, DoneP h0 H pairs e.1 e.2) :
    ∀ v b, ParentReach H v b → (∃ k, (k, v) ∈ pairs) →
      h0.length ≤ b ∧ ∃ k, (k, b) ∈ pairs := by
  intro v b hreach
  induction hreach with
  | parent b hab =>
    rintro ⟨k, hk⟩
    rcases hall (k, v) hk with ⟨hon, hnone⟩ | ⟨kp, vp, hop, hlk, hpp⟩
    · rw [hab] at hnone
      exact Option.noConfusion hnone
    · rw [hab] at hpp
      obtain rfl : b = vp := Option.some.inj hpp
      have hmem := pairsLookup_mem pairs kp b hlk
      exact ⟨(hGI.mem (kp, b) hmem).2.1, kp, hmem⟩
  | tail b c hab hbc ih =>
    intro hv
    obtain ⟨hbge, kb, hkb⟩ := ih hv
    rcases hall (kb, b) hkb with ⟨hon, hnone⟩ | ⟨kp, vp, hop, hlk, hpp⟩
    · rw [hbc] at hnone
      exact Option.noConfusion hnone
    · rw [hbc] at hpp
      obtain rfl : c = vp := Option.some.inj hpp
      have hmem := pairsLookup_mem pairs kp c hlk
      exact ⟨(hGI.mem (kp, c) hmem).2.1, kp, hmem⟩

/-- The phase-1 output heap and the zipped `cloned_pairs` map form a good
starting state: every registered clone is raw. -/
theorem clonePipes_init (h0 : Heap) (pipes : List Nat)
    (hv : ∀ p ∈ pipes, p < h0.length) (hnd : pipes.Nodup) :
    GoodState h0 (clonePhase1 h0 pipes).1
      (pipes.zip (clonePhase1 h0 pipes).2) := by
  obtain ⟨i1, i2, i3, i4⟩ := clonePhase1_spec pipes h0 hv
  have hlen2 : (clonePhase1 h0 pipes).2.length = pipes.length := by
    rw [i2, List.length_range']
  refine ⟨by rw [i1]; omega, i3, ?_, ?_, ?_, ?_⟩
  · intro e he
    obtain ⟨j, hj1, hj2, hj3, hj4⟩ := mem_zip_index pipes _ e he
    have hc : e.2 = h0.length + j := by
      rw [← hj4, i2, List.getD_eq_getElem?_getD,
        List.getElem?_eq_getElem (by rw [List.length_range']; rw [hlen2] at hj2; exact hj2)]
      simp [List.getElem_range']
    refine ⟨?_, by omega, by rw [hc, i1]; rw [hlen2] at hj2; omega⟩
    rw [← hj3]
    exact hv _ (getD_lt_length_mem pipes j hj1)
  · rw [List.map_fst_zip pipes _ (by rw [hlen2])]
    exact hnd
  · rw [List.map_snd_zip pipes _ (by rw [hlen2]), i2]
    exact List.nodup_range' _ _
  · intro e he
    obtain ⟨j, hj1, hj2, hj3, hj4⟩ := mem_zip_index pipes _ e he
    rw [hlen2] at hj2
    have hc : e.2 = h0.length + j := by
      rw [← hj4, i2, List.getD_eq_getElem?_getD,
        List.getElem?_eq_getElem (by rw [List.length_range']; exact hj2)]
      simp [List.getElem_range']
    left
    rw [RawP, hc, i4 j hj2, hj3]

/-- C4 (amended): After `PipeIterator.clone_pipes` on any list of distinct
pipes in an acyclic heap whose parent pipes all have at least one step — a
zero-step parent is falsy under `Pipe.__len__`, so `if not clone.parent`
stops the walk and the clone keeps pointing at the original, see the
counterexample — and given enough fuel for the parent walks: every input
pipe has a fresh clone (the clone list has one fresh, distinct address per
input pipe and the original objects are untouched); any two clones whose
originals referred to the same parent pipe refer to the identical cloned
parent object; and no object reachable through a clone's parent chain is an
object of the original heap. -/
theorem clone_pipes_spec (h0 : Heap) (pipes : List Nat) (rank : Nat → Nat)
    (fuel : Nat) (hv : ∀ p ∈ pipes, p < h0.length) (hnd : pipes.Nodup)
    (hwf : HeapWf h0 rank) (hfl : ∀ a, a < h0.length → rank a < fuel) :
    (clonePipes fuel h0 pipes).2.length = pipes.length ∧
    (∀ c ∈ (clonePipes fuel h0 pipes).2,
      h0.length ≤ c ∧ c < (clonePipes fuel h0 pipes).1.length) ∧
    (clonePipes fuel h0 pipes).2.Nodup ∧
    (∀ a, a < h0.length →
      heapGet (clonePipes fuel h0 pipes).1 a = heapGet h0 a) ∧
    (∀ i j p, i < pipes.length → j < pipes.length →
      (heapGet h0 (pipes.getD i 0)).parent = some p →
      (heapGet h0 (pipes.getD j 0)).parent = some p →
      ∃ cp, h0.length ≤ cp ∧
        (heapGet (clonePipes fuel h0 pipes).1
          ((clonePipes fuel h0 pipes).2.getD i 0)).parent = some cp ∧
        (heapGet (clonePipes fuel h0 pipes).1
          ((clonePipes fuel h0 pipes).2.getD j 0)).parent = some cp) ∧
    (∀ c ∈ (clonePipes fuel h0 pipes).2, ∀ b,
      ParentReach (clonePipes fuel h0 pipes).1 c b → h0.length ≤ b) := by
  obtain ⟨i1, i2, i3, i4⟩ := clonePhase1_spec pipes h0 hv
  have hlen2 : (clonePhase1 h0 pipes).2.length = pipes.length := by
    rw [i2, List.length_range']
  have hGI0 := clonePipes_init h0 pipes hv hnd
  have hcs : ∀ c ∈ (clonePhase1 h0 pipes).2,
      ∃ k, (k, c) ∈ pipes.zip (clonePhase1 h0 pipes).2 :=
    snd_mem_zip (clonePhase1 h0 pipes).2 pipes hlen2.symm
  obtain ⟨G, ⟨t, ht⟩, g3, g4⟩ := cloneFold_spec h0 rank hwf fuel hfl
    (clonePhase1 h0 pipes).2 (clonePhase1 h0 pipes).1
    (pipes.zip (clonePhase1 h0 pipes).2) hGI0 hcs
  have hall : ∀ e, e ∈ ((clonePhase1 h0 pipes).2.foldl
        (fun acc c => cloneWalk fuel acc.1 acc.2 c)
        ((clonePhase1 h0 pipes).1, pipes.zip (clonePhase1 h0 pipes).2)).2 →
      DoneP h0
        ((clonePhase1 h0 pipes).2.foldl
          (fun acc c => cloneWalk fuel acc.1 acc.2 c)
          ((clonePhase1 h0 pipes).1, pipes.zip (clonePhase1 h0 pipes).2)).1
        ((clonePhase1 h0 pipes).2.foldl
          (fun acc c => cloneWalk fuel acc.1 acc.2 c)
          ((clonePhase1 h0 pipes).1, pipes.zip (clonePhase1 h0 pipes).2)).2
        e.1 e.2 := by
    intro e he
    by_cases hze : e ∈ pipes.zip (clonePhase1 h0 pipes).2
    · refine g4 e hze (Or.inr ?_)
      obtain ⟨j, hj1, hj2, hj3, hj4⟩ := mem_zip_index pipes _ e hze
      rw [← hj4]
      exact getD_lt_length_mem _ j hj2
    · exact g3 e he hze
  refine ⟨hlen2, ?_, ?_, G.orig, ?_, ?_⟩
  · intro c hc
    have hc' : c ∈ (clonePhase1 h0 pipes).2 := hc
    obtain ⟨k, hk⟩ := hcs c hc'
    have hkF : (k, c) ∈ ((clonePhase1 h0 pipes).2.foldl
        (fun acc c => cloneWalk fuel acc.1 acc.2 c)
        ((clonePhase1 h0 pipes).1, pipes.zip (clonePhase1 h0 pipes).2)).2 := by
      rw [ht]
      exact List.mem_append_left _ hk
    obtain ⟨m1, m2, m3⟩ := G.mem (k, c) hkF
    exact ⟨m2, m3⟩
  · show (clonePhase1 h0 pipes).2.Nodup
    rw [i2]
    exact List.nodup_range' _ _
  · intro i j p hi hj hpi hpj
    have hilen : i < (clonePhase1 h0 pipes).2.length := by rw [hlen2]; exact hi
    have hjlen : j < (clonePhase1 h0 pipes).2.length := by rw [hlen2]; exact hj
    have hmi := zip_getD_mem pipes (clonePhase1 h0 pipes).2 i hi hilen
    have hmj := zip_getD_mem pipes (clonePhase1 h0 pipes).2 j hj hjlen
    have hmiF : (pipes.getD i 0, (clonePhase1 h0 pipes).2.getD i 0)
        ∈ ((clonePhase1 h0 pipes).2.foldl
          (fun acc c => cloneWalk fuel acc.1 acc.2 c)
          ((clonePhase1 h0 pipes).1, pipes.zip (clonePhase1 h0 pipes).2)).2 := by
      rw [ht]
      exact List.mem_append_left _ hmi
    have hmjF : (pipes.getD j 0, (clonePhase1 h0 pipes).2.getD j 0)
        ∈ ((clonePhase1 h0 pipes).2.foldl
          (fun acc c => cloneWalk fuel acc.1 acc.2 c)
          ((clonePhase1 h0 pipes).1, pipes.zip (clonePhase1 h0 pipes).2)).2 := by
      rw [ht]
      exact List.mem_append_left _ hmj
    rcases hall _ hmiF with ⟨honi, hcni⟩ | ⟨kpi, vpi, hopi, hlki, hppi⟩
    · have honi' : (heapGet h0 (pipes.getD i 0)).parent = none := honi
      rw [hpi] at honi'
      exact Option.noConfusion honi'
    rcases hall _ hmjF with ⟨honj, hcnj⟩ | ⟨kpj, vpj, hopj, hlkj, hppj⟩
    · have honj' : (heapGet h0 (pipes.getD j 0)).parent = none := honj
      rw [hpj] at honj'
      exact Option.noConfusion honj'
    have hopi' : (heapGet h0 (pipes.getD i 0)).parent = some kpi := hopi
    have hopj' : (heapGet h0 (pipes.getD j 0)).parent = some kpj := hopj
    rw [hpi] at hopi'
    rw [hpj] at hopj'
    obtain rfl : p = kpi := Option.some.inj hopi'
    obtain rfl : p = kpj := Option.some.inj hopj'
    have hlkj' := hlkj
    rw [hlki] at hlkj'
    obtain rfl : vpi = vpj := Option.some.inj hlkj'
    have hvmem := pairsLookup_mem _ p vpi hlki
    refine ⟨vpi, (G.mem (p, vpi) hvmem).2.1, hppi, hppj⟩
  · intro c hc b hreach
    have hc' : c ∈ (clonePhase1 h0 pipes).2 := hc
    obtain ⟨k, hk⟩ := hcs c hc'
    have hkF : (k, c) ∈ ((clonePhase1 h0 pipes).2.foldl
        (fun acc c => cloneWalk fuel acc.1 acc.2 c)
        ((clonePhase1 h0 pipes).1, pipes.zip (clonePhase1 h0 pipes).2)).2 := by
      rw [ht]
      exact List.mem_append_left _ hk
    exact (reach_registered h0 _ _ G hall c b hreach ⟨k, hkF⟩).1

/-- C4 counterexample to the original claim: the parent pipe at address 0
has zero steps, so it is falsy and `if not clone.parent: break` fires on the
first walk iteration.  The input pipe at address 1 is cloned to the fresh
address 2, but the clone's parent pointer still holds the ORIGINAL parent
address 0 — an object of the original heap is reachable through the clone's
parent chain, and the clone's parent is not a cloned parent object at all. -/
theorem clone_pipes_counterexample :
    2 ∈ (clonePipes 4 [⟨"par", 9, [], "pp", none⟩,
        ⟨"a", 0, [7], "pa", some 0⟩] [1]).2 ∧
    (heapGet (clonePipes 4 [⟨"par", 9, [], "pp", none⟩,
        ⟨"a", 0, [7], "pa", some 0⟩] [1]).1 2).parent = some 0 ∧
    ParentReach (clonePipes 4 [⟨"par", 9, [], "pp", none⟩,
        ⟨"a", 0, [7], "pa", some 0⟩] [1]).1 2 0 ∧
    0 < ([⟨"par", 9, [], "pp", none⟩,
        ⟨"a", 0, [7], "pa", some 0⟩] : Heap).length := by
  refine ⟨by decide, by decide, ParentReach.parent 2 0 (by decide), by decide⟩

/-- A three-object heap for exercising `clone_pipes`: a shared parent at
address 0 and two pipes at addresses 1 and 2 both pointing at it. -/
def demoHeap : Heap :=
  [⟨"parent", 0, [7], "pp", none⟩,
   ⟨"a", 1, [7, 8], "pa", some 0⟩,
   ⟨"b", 2, [7, 8, 9], "pb", some 0⟩]

theorem clone_pipes_spec_witness :
    (∀ p ∈ ([1, 2] : List Nat), p < demoHeap.length) ∧
    ([1, 2] : List Nat).Nodup ∧
    HeapWf demoHeap (fun a => a) ∧
    (∀ a, a < demoHeap.length → (fun a => a) a < 4) ∧
    ((clonePipes 4 demoHeap [1, 2]).2.length = ([1, 2] : List Nat).length ∧
     (∀ c ∈ (clonePipes 4 demoHeap [1, 2]).2,
       demoHeap.length ≤ c ∧ c < (clonePipes 4 demoHeap [1, 2]).1.length) ∧
     (clonePipes 4 demoHeap [1, 2]).2.Nodup ∧
     (∀ a, a < demoHeap.length →
       heapGet (clonePipes 4 demoHeap [1, 2]).1 a = heapGet demoHeap a) ∧
     (∀ i j p, i < ([1, 2] : List Nat).length → j < ([1, 2] : List Nat).length →
       (heapGet demoHeap (([1, 2] : List Nat).getD i 0)).parent = some p →
       (heapGet demoHeap (([1, 2] : List Nat).getD j 0)).parent = some p →
       ∃ cp, demoHeap.length ≤ cp ∧
         (heapGet (clonePipes 4 demoHeap [1, 2]).1
           ((clonePipes 4 demoHeap [1, 2]).2.getD i 0)).parent = some cp ∧
         (heapGet (clonePipes 4 demoHeap [1, 2]).1
           ((clonePipes 4 demoHeap [1, 2]).2.getD j 0)).parent = some cp) ∧
     (∀ c ∈ (clonePipes 4 demoHeap [1, 2]).2, ∀ b,
       ParentReach (clonePipes 4 demoHeap [1, 2]).1 c b →
         demoHeap.length ≤ b)) := by
  have h1 : ∀ p ∈ ([1, 2] : List Nat), p < demoHeap.length := by decide
  have h2 : ([1, 2] : List Nat).Nodup := by decide
  have h3 : HeapWf demoHeap (fun a => a) := by
    intro a ha b hb
    have ha3 : a < 3 := ha
    interval_cases a
    · have hp : (heapGet demoHeap 0).parent = none := rfl
      rw [hp] at hb
      exact Option.noConfusion hb
    · have hp : (heapGet demoHeap 1).parent = some 0 := rfl
      rw [hp] at hb
      obtain rfl : (0 : Nat) = b := Option.some.inj hb
      exact ⟨by decide, by decide, by decide⟩
    · have hp : (heapGet demoHeap 2).parent = some 0 := rfl
      rw [hp] at hb
      obtain rfl : (0 : Nat) = b := Option.some.inj hb
      exact ⟨by decide, by decide, by decide⟩
  have h4 : ∀ a, a < demoHeap.length → (fun a => a) a < 4 := by
    intro a ha
    have ha3 : a < 3 := ha
    show a < 4
    omega
  exact ⟨h1, h2, h3, h4,
    clone_pipes_spec demoHeap [1, 2] (fun a => a) 4 h1 h2 h3 h4⟩

end DltPipe
